import Mathlib

/-!
Shallow embedding of the PSN storefront handler
(`src/public/javascripts/psn-handler.js` and the unnamed handler module).

Strings are modelled as `List Char`; JavaScript numbers are modelled as
exact rationals (`ℚ`), extended with `NaN`/`±Infinity` markers (`JSNum`)
where the source can produce them (`parseFloat`, the cross-region match
score arithmetic).  All definitions are executable.
-/

/- The Batteries rational-arithmetic primitives are marked `irreducible`,
which blocks `decide`-style evaluation of the exact-rational model; restore
the definitional transparency of these purely computational functions. -/
set_option allowUnsafeReducibility true in
attribute [semireducible] Rat.ofScientific Rat.mul Rat.inv Rat.add Rat.sub

/-- ASCII whitespace recognised by JS `\s` (space, tab, LF, VT, FF, CR). -/
def isWsChar (c : Char) : Bool :=
  c = ' ' || c = '\t' || c = '\n' || c = '\r' || c = '\x0B' || c = '\x0C'

/-- JS word character (`\w`, i.e. `[A-Za-z0-9_]`), used for `\b` boundaries. -/
def isWordChar (c : Char) : Bool := c.isAlphanum || c = '_'

/-- `listStartsWith p s` : `s` starts with the pattern `p`
(JS `String.prototype.startsWith`). -/
def listStartsWith : List Char → List Char → Bool
  | [], _ => true
  | _ :: _, [] => false
  | p :: ps, c :: cs => p == c && listStartsWith ps cs

/-- `containsSub pat s` : `pat` occurs as a contiguous substring of `s`
(JS `String.prototype.includes`; the empty pattern always occurs). -/
def containsSub (pat : List Char) : List Char → Bool
  | [] => listStartsWith pat []
  | c :: rest => listStartsWith pat (c :: rest) || containsSub pat rest

/-- Splitting on runs of whitespace (JS `split(/\s+/)`): a leading or trailing
run produces an empty chunk, interior runs separate chunks. -/
def splitWsGo (cur : List Char) : List Char → List (List Char)
  | [] => [cur.reverse]
  | c :: rest =>
    if isWsChar c then cur.reverse :: splitWsGo [] (rest.dropWhile isWsChar)
    else splitWsGo (c :: cur) rest
termination_by l => l.length
decreasing_by
  · simp only [List.length_cons]
    exact Nat.lt_succ_of_le (List.dropWhile_sublist _).length_le
  · simp

/-- JS `split(/\s+/)` on a whole string. -/
def splitWs (s : List Char) : List (List Char) := splitWsGo [] s

/-- Numeric value of a list of decimal digit characters (most significant
first); the empty list denotes 0. -/
def natOfDigits : List Char → Nat :=
  List.foldl (fun n c => 10 * n + (c.toNat - 48)) 0

/-- Value of a decimal fraction part: digits `d₁…dₙ` denote `0.d₁…dₙ`. -/
def fracOfDigits (l : List Char) : ℚ :=
  (natOfDigits l : ℚ) / (10 : ℚ) ^ l.length

/-- A JavaScript number: a finite (here: exact rational) value, one of the
two infinities, or `NaN`. -/
inductive JSNum where
  | num : ℚ → JSNum
  | posInf : JSNum
  | negInf : JSNum
  | nan : JSNum
deriving DecidableEq

namespace JSNum

/-- JS unary negation. -/
def neg : JSNum → JSNum
  | num q => num (-q)
  | posInf => negInf
  | negInf => posInf
  | nan => nan

/-- JS addition (IEEE rules on the special values; `∞ + (-∞) = NaN`). -/
def add : JSNum → JSNum → JSNum
  | nan, _ => nan
  | _, nan => nan
  | num a, num b => num (a + b)
  | posInf, negInf => nan
  | negInf, posInf => nan
  | posInf, _ => posInf
  | _, posInf => posInf
  | negInf, _ => negInf
  | _, negInf => negInf

/-- JS subtraction, as addition of the negation. -/
def sub (x y : JSNum) : JSNum := add x (neg y)

/-- JS `Math.abs`. -/
def abs : JSNum → JSNum
  | num q => num |q|
  | nan => nan
  | _ => posInf

/-- JS `Math.max` on two arguments (`NaN` if either argument is `NaN`). -/
def max2 : JSNum → JSNum → JSNum
  | nan, _ => nan
  | _, nan => nan
  | posInf, _ => posInf
  | _, posInf => posInf
  | negInf, y => y
  | x, negInf => x
  | num a, num b => num (max a b)

/-- JS multiplication (IEEE rules; `0 × ∞ = NaN`). -/
def mul : JSNum → JSNum → JSNum
  | nan, _ => nan
  | _, nan => nan
  | num a, num b => num (a * b)
  | posInf, posInf => posInf
  | posInf, negInf => negInf
  | negInf, posInf => negInf
  | negInf, negInf => posInf
  | posInf, num b => if b = 0 then nan else if 0 < b then posInf else negInf
  | num a, posInf => if a = 0 then nan else if 0 < a then posInf else negInf
  | negInf, num b => if b = 0 then nan else if 0 < b then negInf else posInf
  | num a, negInf => if a = 0 then nan else if 0 < a then negInf else posInf

/-- JS division (IEEE rules; `∞/∞ = NaN`, `x/0` is a signed infinity for
`x ≠ 0` and `NaN` for `x = 0`; signed zeros are collapsed to `0`). -/
def div : JSNum → JSNum → JSNum
  | nan, _ => nan
  | _, nan => nan
  | posInf, posInf => nan
  | posInf, negInf => nan
  | negInf, posInf => nan
  | negInf, negInf => nan
  | posInf, num b => if 0 ≤ b then posInf else negInf
  | negInf, num b => if 0 ≤ b then negInf else posInf
  | num _, posInf => num 0
  | num _, negInf => num 0
  | num a, num b =>
    if b = 0 then (if a = 0 then nan else if 0 < a then posInf else negInf)
    else num (a / b)

/-- JS comparison `x >= q` against a finite constant (`false` on `NaN`). -/
def ge (x : JSNum) (q : ℚ) : Bool :=
  match x with
  | num a => decide (q ≤ a)
  | posInf => true
  | negInf => false
  | nan => false

end JSNum

/-- Exponent digits of a `parseFloat` exponent part: the leading digit run,
or 0 when there is none (JS then ignores the exponent marker). -/
def expDigits (u : List Char) : Int :=
  let ds := u.takeWhile Char.isDigit
  if ds.isEmpty then 0 else (natOfDigits ds : Int)

/-- Exponent denoted by the remainder of a `parseFloat` input after the
mantissa: `e`/`E`, an optional sign, then digits; anything else means 0. -/
def expOf : List Char → Int
  | [] => 0
  | c :: rest =>
    if c = 'e' ∨ c = 'E' then
      match rest with
      | '+' :: u => expDigits u
      | '-' :: u => - expDigits u
      | u => expDigits u
    else 0

/-- Ten to an integer power, as an exact rational. -/
def qTenPow : Int → ℚ
  | Int.ofNat n => (10 : ℚ) ^ n
  | Int.negSucc n => 1 / (10 : ℚ) ^ (n + 1)

/-- `parseFloat` after the optional sign: the literal `Infinity`, or the
longest prefix `digits [. digits] [exponent]`; `NaN` when no mantissa digit
is found. -/
def parseFloatTail (sign : ℚ) (s : List Char) : JSNum :=
  if listStartsWith ("Infinity".toList) s then
    (if sign < 0 then JSNum.negInf else JSNum.posInf)
  else
    let ip := s.takeWhile Char.isDigit
    let r1 := s.drop ip.length
    let fp := match r1 with
      | '.' :: t => t.takeWhile Char.isDigit
      | _ => []
    let r2 := match r1 with
      | '.' :: t => t.drop ((t.takeWhile Char.isDigit).length)
      | _ => r1
    if ip.isEmpty && fp.isEmpty then JSNum.nan
    else JSNum.num (sign * ((natOfDigits ip : ℚ) + fracOfDigits fp) * qTenPow (expOf r2))

/-- JS `parseFloat` on a raw string: skip leading whitespace, read an
optional sign, then the longest numeric prefix; `NaN` when none exists. -/
def parseFloatJS (s : List Char) : JSNum :=
  match s.dropWhile isWsChar with
  | '+' :: r => parseFloatTail 1 r
  | '-' :: r => parseFloatTail (-1) r
  | r => parseFloatTail 1 r

/-- Characters kept by `parsePrice`'s first cleaning pass
(`replace(/[^\d,.]/g, '')`). -/
def keepPriceChar (c : Char) : Bool := c.isDigit || c = ',' || c = '.'

/-- Remove every occurrence of a character (JS `replace(/c/g, '')`). -/
def removeAllCh (t : Char) (s : List Char) : List Char := s.filter (fun c => c != t)

/-- Replace the first occurrence of a character (JS non-global `replace`). -/
def replaceFirstCh (t r : Char) : List Char → List Char
  | [] => []
  | c :: rest => if c = t then r :: rest else c :: replaceFirstCh t r rest

/-- Index of the last occurrence of a character (JS `lastIndexOf`, with
`none` in place of `-1`). -/
def lastIdx (t : Char) : List Char → Option Nat
  | [] => none
  | c :: rest =>
    match lastIdx t rest with
    | some n => some (n + 1)
    | none => if c = t then some 0 else none

/-- The separator normalisation step of `parsePrice` (psn-handler.js
lines 329-348), acting on the already-filtered string: compare the last
comma and last dot; the rightmost one becomes the decimal separator when
at most 2 characters follow it, and in the remaining branches only commas
(or, with no separator at all, commas and dots) are removed. -/
def cleanedPrice (cleaned : List Char) : List Char :=
  match lastIdx ',' cleaned, lastIdx '.' cleaned with
  | some i, none =>
    if (cleaned.drop (i + 1)).length ≤ 2 then
      replaceFirstCh ',' '.' (removeAllCh '.' cleaned)
    else removeAllCh ',' cleaned
  | some i, some j =>
    if j < i then
      if (cleaned.drop (i + 1)).length ≤ 2 then
        replaceFirstCh ',' '.' (removeAllCh '.' cleaned)
      else removeAllCh ',' cleaned
    else if i < j then
      if (cleaned.drop (j + 1)).length ≤ 2 then removeAllCh ',' cleaned
      else removeAllCh ',' cleaned
    else cleaned.filter (fun c => c != ',' && c != '.')
  | none, some j =>
    if (cleaned.drop (j + 1)).length ≤ 2 then removeAllCh ',' cleaned
    else removeAllCh ',' cleaned
  | none, none => cleaned.filter (fun c => c != ',' && c != '.')

/-- The finite value of a `parseFloat` result, with `NaN` collapsed to 0
(JS `parseFloat(cleaned) || 0`; the cleaned price string contains only
digits, commas and dots, so no infinity can arise). -/
def jsNumOrZero : JSNum → ℚ
  | JSNum.num q => q
  | _ => 0

/-- `parsePrice` (psn-handler.js lines 326-353): strip everything but
digits, commas and dots, disambiguate the separators, convert. -/
def parsePrice (s : List Char) : ℚ :=
  jsNumOrZero (parseFloatJS (cleanedPrice (s.filter keepPriceChar)))

/-- Lowercasing a string (JS `toLowerCase`, ASCII range). -/
def lowerL (s : List Char) : List Char := s.map Char.toLower

/-- The Levenshtein edit-distance recurrence computed by the dynamic
programming table of `levenshteinDistance` (unnamed module lines 339-365):
`m[i][j]` there is the distance between the length-`j` prefix of `str1` and
the length-`i` prefix of `str2`; equal leading characters take the diagonal
entry, otherwise 1 plus the least of diagonal, left and up. -/
def levenshteinDistance : List Char → List Char → Nat
  | [], ys => ys.length
  | xs, [] => xs.length
  | x :: xs, y :: ys =>
    if x = y then levenshteinDistance xs ys
    else
      min (levenshteinDistance xs ys)
        (min (levenshteinDistance (x :: xs) ys) (levenshteinDistance xs (y :: ys))) + 1
termination_by xs ys => (xs.length, ys.length)

/-- `calculateStringSimilarity` (unnamed module lines 328-334):
`(maxLength − distance) / maxLength`, and 1 for two empty strings. -/
def calculateStringSimilarity (str1 str2 : List Char) : ℚ :=
  let maxLength := max str1.length str2.length
  if maxLength = 0 then 1
  else ((maxLength : ℚ) - (levenshteinDistance str1 str2 : ℚ)) / (maxLength : ℚ)

/-- A product payload as consumed by the cross-region matcher: the fields
`calculateMatchScore` and `matchProductsCrossRegion` read.  `productId`
holds the raw identifier (`productId?.raw`); `region` is the string stored
by the producer of the payload. -/
structure CRProduct where
  title : Option (List Char)
  price : Option (List Char)
  productId : Option (List Char)
  region : List Char
deriving DecidableEq

/-- The title-similarity block of `calculateMatchScore` (lines 292-300):
when both titles are truthy, add 0.40 × Levenshtein similarity of the
lowercased titles to the running score and count the criterion. -/
def titleStep (product1 product2 : CRProduct) (acc : JSNum × Nat) : JSNum × Nat :=
  match product1.title, product2.title with
  | some t1, some t2 =>
    if t1.isEmpty || t2.isEmpty then acc
    else
      (JSNum.add acc.1 (JSNum.mul
        (JSNum.num (calculateStringSimilarity (lowerL t1) (lowerL t2))) (JSNum.num 0.40)),
       acc.2 + 1)
  | _, _ => acc

/-- The price-similarity block of `calculateMatchScore` (lines 302-312):
when both price strings are truthy and `parseFloat` yields non-`NaN`
values, add 0.30 × `max(0, 1 − 2·|p1−p2|/max(p1,p2))` and count the
criterion. -/
def priceStep (product1 product2 : CRProduct) (acc : JSNum × Nat) : JSNum × Nat :=
  match product1.price, product2.price with
  | some p1, some p2 =>
    if p1.isEmpty || p2.isEmpty then acc
    else
      match parseFloatJS p1, parseFloatJS p2 with
      | JSNum.nan, _ => acc
      | _, JSNum.nan => acc
      | v1, v2 =>
        let priceDiff := JSNum.div (JSNum.abs (JSNum.sub v1 v2)) (JSNum.max2 v1 v2)
        let priceSimilarity :=
          JSNum.max2 (JSNum.num 0) (JSNum.sub (JSNum.num 1) (JSNum.mul priceDiff (JSNum.num 2)))
        (JSNum.add acc.1 (JSNum.mul priceSimilarity (JSNum.num 0.30)), acc.2 + 1)
  | _, _ => acc

/-- The identifier-similarity block of `calculateMatchScore`
(lines 314-320): when both raw identifiers are truthy, add 0.30 × (1 for
equal identifiers, otherwise their Levenshtein similarity) and count the
criterion. -/
def idStep (product1 product2 : CRProduct) (acc : JSNum × Nat) : JSNum × Nat :=
  match product1.productId, product2.productId with
  | some id1, some id2 =>
    if id1.isEmpty || id2.isEmpty then acc
    else
      let idSimilarity : ℚ := if id1 = id2 then 1 else calculateStringSimilarity id1 id2
      (JSNum.add acc.1 (JSNum.mul (JSNum.num idSimilarity) (JSNum.num 0.30)), acc.2 + 1)
  | _, _ => acc

/-- `calculateMatchScore` (unnamed module lines 288-323): a weighted sum of
title similarity (0.40), price similarity (0.30) and identifier similarity
(0.30) over the criteria whose inputs are present (JS-truthy strings,
non-`NaN` parsed prices), divided by the number of included criteria. -/
def calculateMatchScore (product1 product2 : CRProduct) : JSNum :=
  let acc3 : JSNum × Nat :=
    idStep product1 product2 (priceStep product1 product2
      (titleStep product1 product2 (JSNum.num 0, 0)))
  if 0 < acc3.2 then JSNum.div acc3.1 (JSNum.num (acc3.2 : ℚ)) else JSNum.num 0

/-- One confidence-bucket entry of `matchProductsCrossRegion`. -/
structure MatchEntry where
  region : List Char
  data : CRProduct
  confidence : JSNum
deriving DecidableEq

/-- The bucketed result of `matchProductsCrossRegion`. -/
structure MatchBuckets where
  exact : List MatchEntry
  likely : List MatchEntry
  potential : List MatchEntry
  noMatch : Bool
deriving DecidableEq

/-- The region loop of `matchProductsCrossRegion` (lines 211-240): skip a
target region equal to `productData.region`, fetch a candidate (modelled by
`fetchF`; `none` is a failed fetch), score it and place it in the exact
(≥ 0.95) / likely (≥ 0.80) / potential (≥ 0.60) bucket, in region order. -/
def matchLoop (productData : CRProduct) (fetchF : List Char → Option CRProduct) :
    List (List Char) → List MatchEntry × List MatchEntry × List MatchEntry
  | [] => ([], [], [])
  | region :: rest =>
    if region = productData.region then matchLoop productData fetchF rest
    else
      match fetchF region with
      | none => matchLoop productData fetchF rest
      | some regionData =>
        let matchScore := calculateMatchScore productData regionData
        let acc := matchLoop productData fetchF rest
        if JSNum.ge matchScore 0.95 then
          (⟨region, regionData, matchScore⟩ :: acc.1, acc.2.1, acc.2.2)
        else if JSNum.ge matchScore 0.80 then
          (acc.1, ⟨region, regionData, matchScore⟩ :: acc.2.1, acc.2.2)
        else if JSNum.ge matchScore 0.60 then
          (acc.1, acc.2.1, ⟨region, regionData, matchScore⟩ :: acc.2.2)
        else acc

/-- `matchProductsCrossRegion` (lines 202-246): run the region loop and set
`noMatch` when every bucket stayed empty. -/
def matchProductsCrossRegion (productData : CRProduct) (fetchF : List Char → Option CRProduct)
    (targetRegions : List (List Char)) : MatchBuckets :=
  let acc := matchLoop productData fetchF targetRegions
  ⟨acc.1, acc.2.1, acc.2.2, acc.1.isEmpty && acc.2.1.isEmpty && acc.2.2.isEmpty⟩

/-- The target regions for which the loop of `matchProductsCrossRegion`
issues a candidate fetch: exactly those differing from
`productData.region` (the `continue` guard at line 212). -/
def fetchedRegions (productData : CRProduct) (targetRegions : List (List Char)) :
    List (List Char) :=
  targetRegions.filter (fun region => region != productData.region)

/-- `REGION_CONFIG[key].name` with the `|| REGION_CONFIG.us` fallback of
`getRegionSelectors`: the display name that `extractProductData` stores
into the payload's `region` field (line 139). -/
def regionConfigName (key : List Char) : List Char :=
  if key = ("us".toList) then "United States".toList
  else if key = ("eu".toList) then "Europe".toList
  else if key = ("jp".toList) then "Japan".toList
  else "United States".toList

/-- The payload built by `extractProductData` (lines 132-141), restricted
to the fields the cross-region matcher reads; its `region` field holds
`config.name`, the display name, not the region key. -/
def extractedProduct (title price productId : Option (List Char)) (regionKey : List Char) :
    CRProduct :=
  ⟨title, price, productId, regionConfigName regionKey⟩

/-- Uppercasing a string (JS `toUpperCase`, ASCII range). -/
def upperL (s : List Char) : List Char := s.map Char.toUpper

/-- Match of the pattern `(dddd)` (the regex `/\(\d{4}\)/`) at the start of
the string. -/
def parenYearAt (s : List Char) : Bool :=
  match s with
  | c0 :: d1 :: d2 :: d3 :: d4 :: c5 :: _ =>
    c0 == '(' && d1.isDigit && d2.isDigit && d3.isDigit && d4.isDigit && c5 == ')'
  | _ => false

/-- `/\(\d{4}\)/` tested anywhere in the string. -/
def containsParenYear : List Char → Bool
  | [] => false
  | c :: rest => parenYearAt (c :: rest) || containsParenYear rest

/-- Match of the word-bounded token `20dd` (the regex `/\b20\d{2}\b/`) at
the start of the string, where `prev` is the character just before this
position (`none` at the start of the whole string). -/
def bare20At (prev : Option Char) (s : List Char) : Bool :=
  match s with
  | c0 :: c1 :: d1 :: d2 :: rest =>
    c0 == '2' && c1 == '0' && d1.isDigit && d2.isDigit &&
    (match prev with | none => true | some c => !isWordChar c) &&
    (match rest with | [] => true | c :: _ => !isWordChar c)
  | _ => false

/-- `/\b20\d{2}\b/` tested from every position, threading the previous
character for the left word boundary. -/
def contains20Go (prev : Option Char) : List Char → Bool
  | [] => false
  | c :: rest => bare20At prev (c :: rest) || contains20Go (some c) rest

/-- The year-bonus test of `calculateRelevanceScore` (psn-handler.js
line 220): `nameLower.match(/\(\d{4}\)/) || nameLower.match(/\b20\d{2}\b/)`. -/
def yearIndicator (s : List Char) : Bool := containsParenYear s || contains20Go none s

/-- Match of a literal pattern at the start of the string with `\b` word
boundaries on both sides (all patterns used start and end with a word
character, so both boundaries require a non-word neighbour or the edge). -/
def wbMatchAt (pat : List Char) (prev : Option Char) (s : List Char) : Bool :=
  listStartsWith pat s &&
  (match prev with | none => true | some c => !isWordChar c) &&
  (match s.drop pat.length with | [] => true | c :: _ => !isWordChar c)

/-- Word-bounded containment, scanning every position. -/
def wbContainsGo (pat : List Char) (prev : Option Char) : List Char → Bool
  | [] => false
  | c :: rest => wbMatchAt pat prev (c :: rest) || wbContainsGo pat (some c) rest

/-- Word-bounded containment in a whole string. -/
def wbContains (pat s : List Char) : Bool := wbContainsGo pat none s

/-- The alternatives of the base-game regex
`/\b(game|the game|complete game|full game)\b/` (line 205). -/
def gameWordPats : List (List Char) :=
  ["game", "the game", "complete game", "full game"].map String.toList

/-- The DLC / add-on indicator lexicon (lines 173-179), in source order. -/
def dlcIndicators : List (List Char) :=
  ["dlc", "add-on", "addon", "pack", "bundle", "expansion",
   "season pass", "content pack", "digital deluxe", "upgrade",
   "edition upgrade", "cosmetic", "soundtrack", "art book",
   "bonus content", "pre-order", "exclusive", "digital bonus",
   "item pack", "weapon pack", "skin", "character pack"].map String.toList

/-- The special-edition indicator lexicon (lines 190-194), in source order. -/
def editionIndicators : List (List Char) :=
  [("deluxe edition".toList), ("premium edition".toList), ("ultimate edition".toList),
   ("gold edition".toList), ("complete edition".toList),
   ("collector".toList ++ '\'' :: ("s edition".toList)),
   ("limited edition".toList), ("special edition".toList), ("goty".toList)]

/-- `calculateRelevanceScore` (psn-handler.js lines 152-227): base match
score (exact 100 / substring 50 / word-fraction × 30), −40 for a DLC
indicator, −20 for an edition indicator, +15 for a game-word, +10 for a
short name, +25 when the name starts with the query, +15 for the year
indicator; 0 when either input is empty (falsy). -/
def calculateRelevanceScore (productName searchQuery : List Char) : ℚ :=
  if productName.isEmpty || searchQuery.isEmpty then 0
  else
    let nameLower := lowerL productName
    let queryLower := lowerL searchQuery
    let base : ℚ :=
      if nameLower = queryLower then 100
      else if containsSub queryLower nameLower then 50
      else
        let queryWords := splitWs queryLower
        let matchedWords := queryWords.filter (fun word => containsSub word nameLower)
        ((matchedWords.length : ℚ) / (queryWords.length : ℚ)) * 30
    let dlcPenalty : ℚ :=
      if dlcIndicators.any (fun indicator => containsSub indicator nameLower) then 40 else 0
    let editionPenalty : ℚ :=
      if editionIndicators.any (fun edition => containsSub edition nameLower) then 20 else 0
    let gameBonus : ℚ := if gameWordPats.any (fun pat => wbContains pat nameLower) then 15 else 0
    let lengthBonus : ℚ := if productName.length < 30 then 10 else 0
    let startBonus : ℚ := if listStartsWith queryLower nameLower then 25 else 0
    let yearBonus : ℚ := if yearIndicator nameLower then 15 else 0
    base - dlcPenalty - editionPenalty + gameBonus + lengthBonus + startBonus + yearBonus

/-- `calculateRelevanceScore` with the year-bonus step removed: the sum of
every other scoring step, used to isolate the year bonus. -/
def relevanceScoreSansYear (productName searchQuery : List Char) : ℚ :=
  if productName.isEmpty || searchQuery.isEmpty then 0
  else
    let nameLower := lowerL productName
    let queryLower := lowerL searchQuery
    let base : ℚ :=
      if nameLower = queryLower then 100
      else if containsSub queryLower nameLower then 50
      else
        let queryWords := splitWs queryLower
        let matchedWords := queryWords.filter (fun word => containsSub word nameLower)
        ((matchedWords.length : ℚ) / (queryWords.length : ℚ)) * 30
    let dlcPenalty : ℚ :=
      if dlcIndicators.any (fun indicator => containsSub indicator nameLower) then 40 else 0
    let editionPenalty : ℚ :=
      if editionIndicators.any (fun edition => containsSub edition nameLower) then 20 else 0
    let gameBonus : ℚ := if gameWordPats.any (fun pat => wbContains pat nameLower) then 15 else 0
    let lengthBonus : ℚ := if productName.length < 30 then 10 else 0
    let startBonus : ℚ := if listStartsWith queryLower nameLower then 25 else 0
    base - dlcPenalty - editionPenalty + gameBonus + lengthBonus + startBonus

/-- A normalised product record as assembled by `getProductInfo`
(psn-handler.js lines 478-491). -/
structure PSNProduct where
  index : Nat
  name : List Char
  price : List Char
  rawPrice : ℚ
  priceInEur : ℚ
  currency : List Char
  currencyCode : List Char
  exchangeRate : ℚ
  url : List Char
  imageUrl : Option (List Char)
  region : List Char
  productId : Option (List Char)
  enriched : Bool
deriving DecidableEq

/-- A product record together with the relevance score attached by
`rankSearchResults` (the `{...result, relevanceScore}` spread). -/
structure ScoredProduct where
  item : PSNProduct
  relevanceScore : ℚ
deriving DecidableEq

/-- The three result lists returned by `rankSearchResults`. -/
structure RankedResults where
  all : List ScoredProduct
  baseGames : List ScoredProduct
  dlcAddons : List ScoredProduct
deriving DecidableEq

/-- `rankSearchResults` (psn-handler.js lines 232-253): score every result,
sort descending by score (JS `sort` with comparator
`(a, b) => b.relevanceScore - a.relevanceScore`, a stable sort), then split
at the fixed threshold 20. -/
def rankSearchResults (results : List PSNProduct) (searchQuery : List Char) : RankedResults :=
  let scored := results.map (fun result =>
    ScoredProduct.mk result (calculateRelevanceScore result.name searchQuery))
  let sortedR := scored.mergeSort (fun a b => decide (b.relevanceScore ≤ a.relevanceScore))
  ⟨sortedR,
   sortedR.filter (fun r => decide (20 ≤ r.relevanceScore)),
   sortedR.filter (fun r => decide (r.relevanceScore < 20))⟩

/-- `extractProductId`'s regex `/\/product\/([^/]+)$/` (lines 51-55):
a final path segment following `/product/`, nonempty and slash-free. -/
def productIdOfHref : List Char → Option (List Char)
  | [] => none
  | c :: rest =>
    if listStartsWith ("/product/".toList) (c :: rest) then
      let cand := (c :: rest).drop 9
      if !cand.isEmpty && !cand.contains '/' then some cand else productIdOfHref rest
    else productIdOfHref rest

/-- `extractProductId` on a possibly-missing href. -/
def extractProductId (href : Option (List Char)) : Option (List Char) :=
  match href with
  | none => none
  | some h => productIdOfHref h

/-- `getProductUrl` (lines 43-46); JS string concatenation coerces a `null`
href to the text `null`. -/
def getProductUrl (href : Option (List Char)) : List Char :=
  ("https://store.playstation.com".toList) ++
    (match href with | some h => h | none => "null".toList)

/-- Replace every occurrence of a character (JS `replace(/x/g, y)`). -/
def replaceAllCh (t r : Char) (s : List Char) : List Char :=
  s.map (fun c => if c = t then r else c)

/-- Match of the regex `/\/\d{2,3}x\d{2,3}\//` at the start of the string;
returns the matched length minus 1 (`some k` means `k + 1` characters
matched). -/
def sizePatAt (s : List Char) : Option Nat :=
  match s with
  | '/' :: rest =>
    let d1 := rest.takeWhile Char.isDigit
    if d1.length = 2 || d1.length = 3 then
      match rest.drop d1.length with
      | 'x' :: rest2 =>
        let d2 := rest2.takeWhile Char.isDigit
        if d2.length = 2 || d2.length = 3 then
          match rest2.drop d2.length with
          | '/' :: _ => some (d1.length + d2.length + 2)
          | _ => none
        else none
      | _ => none
    else none
  | _ => none

/-- Global replacement of `/\/\d{2,3}x\d{2,3}\//g` by `/512x512/`,
resuming after each match as JS global `replace` does. -/
def replaceSizePat : List Char → List Char
  | [] => []
  | c :: rest =>
    match sizePatAt (c :: rest) with
    | some k => ("/512x512/".toList) ++ replaceSizePat (rest.drop k)
    | none => c :: replaceSizePat rest
termination_by s => s.length
decreasing_by
  · simp only [List.length_cons]
    exact Nat.lt_succ_of_le (List.length_drop _ _ ▸ Nat.sub_le _ _)
  · simp

/-- First-occurrence replacement of a literal segment (the non-global
`replace(/\/128\//, '/512/')` and friends). -/
def replaceFirstSeg (pat rep : List Char) : List Char → List Char
  | [] => []
  | c :: rest =>
    if listStartsWith pat (c :: rest) then rep ++ (c :: rest).drop pat.length
    else c :: replaceFirstSeg pat rep rest

/-- Match of `/size=\d{2,3}/` at the start of the string; the digit run is
taken greedily up to 3 digits and needs no terminator.  Returns the matched
length minus 1. -/
def sizeEqPatAt (s : List Char) : Option Nat :=
  if listStartsWith ("size=".toList) s then
    let d := (s.drop 5).takeWhile Char.isDigit
    if 2 ≤ d.length then some (4 + min d.length 3) else none
  else none

/-- Global replacement of `/size=\d{2,3}/g` by `size=512`. -/
def replaceSizeEq : List Char → List Char
  | [] => []
  | c :: rest =>
    match sizeEqPatAt (c :: rest) with
    | some k => ("size=512".toList) ++ replaceSizeEq (rest.drop k)
    | none => c :: replaceSizeEq rest
termination_by s => s.length
decreasing_by
  · simp only [List.length_cons]
    exact Nat.lt_succ_of_le (List.length_drop _ _ ▸ Nat.sub_le _ _)
  · simp

/-- `upgradeImageUrl` (psn-handler.js lines 60-74); a falsy (missing or
empty) URL is returned unchanged. -/
def upgradeImageUrl (imageUrl : Option (List Char)) : Option (List Char) :=
  match imageUrl with
  | none => none
  | some u =>
    if u.isEmpty then some u
    else
      let hr := replaceFirstSeg ("/200/".toList) ("/512/".toList)
                 (replaceFirstSeg ("/160/".toList) ("/512/".toList)
                   (replaceFirstSeg ("/128/".toList) ("/512/".toList) (replaceSizePat u)))
      some (if containsSub ("size=".toList) hr then replaceSizeEq hr else hr)

/-- The per-listing processing step of `getProductInfo` (psn-handler.js
lines 457-512): skip the listing unless both name and price are truthy, in
region `BE` rewrite `$` to `€`, parse the price, convert it with the
request's exchange rate, build the record, and replace the image with the
upgraded metadata image when an id was found and metadata (modelled by
`metadataImage`, the `metadata.imageUrl` value) was fetched. -/
def processListing (index : Nat)
    (productName productPrice productURL imageUrl : Option (List Char))
    (region : List Char) (exchangeRate : ℚ) (currencySymbol currencyName : List Char)
    (metadataImage : Option (List Char)) : Option PSNProduct :=
  match productName, productPrice with
  | some nm, some pr =>
    if nm.isEmpty || pr.isEmpty then none
    else
      let pr2 := if upperL region = ("BE".toList) then replaceAllCh '$' '€' pr else pr
      let productId := extractProductId productURL
      let rawPrice := parsePrice pr2
      let priceInEur := rawPrice * exchangeRate
      let base : PSNProduct :=
        ⟨index, nm, pr2, rawPrice, priceInEur, currencySymbol, currencyName, exchangeRate,
         getProductUrl productURL, upgradeImageUrl imageUrl, region, productId, false⟩
      match productId, metadataImage with
      | some _, some m => some { base with imageUrl := upgradeImageUrl (some m), enriched := true }
      | _, _ => some base
  | _, _ => none

/-- The upstream exchange-rate payload (`response.data.rates` of the
EUR-based rate API), restricted to the currencies the handler reads. -/
structure EuRates where
  JPY : ℚ
  TRY : ℚ
  INR : ℚ
deriving DecidableEq

/-- The module-level `exchangeRateCache` (psn-handler.js lines 29-32). -/
structure RateCache where
  timestamp : ℤ
  rates : List (List Char × ℚ)
deriving DecidableEq

/-- `CACHE_DURATION` (line 34): one hour in milliseconds. -/
def CACHE_DURATION : ℤ := 3600000

/-- The hardcoded fallback table (lines 396-401). -/
def fallbackRates : List (List Char × ℚ) :=
  [(("JPY".toList), 0.00623), (("TRY".toList), 0.03105),
   (("INR".toList), 0.00950), (("EUR".toList), 1)]

/-- `getExchangeRates` (psn-handler.js lines 358-406) as a function of the
current time, the cache state, and the upstream fetch outcome (`none` is a
failed request): serve the cache while fresh and non-empty, otherwise
refresh; on failure serve the stale cache if non-empty, else the hardcoded
fallback.  Returns the served table and the updated cache. -/
def getExchangeRates (now : ℤ) (cache : RateCache) (fetchResult : Option EuRates) :
    List (List Char × ℚ) × RateCache :=
  if now - cache.timestamp < CACHE_DURATION ∧ cache.rates ≠ [] then (cache.rates, cache)
  else
    match fetchResult with
    | some euRates =>
      let rates : List (List Char × ℚ) :=
        [(("JPY".toList), 1 / euRates.JPY), (("TRY".toList), 1 / euRates.TRY),
         (("INR".toList), 1 / euRates.INR), (("EUR".toList), 1)]
      (rates, ⟨now, rates⟩)
    | none =>
      if cache.rates ≠ [] then (cache.rates, cache)
      else (fallbackRates, cache)

/-- The claim's reading of `parsePrice` (C3), used only for comparison with
the implementation: after the cleaning pass, the rightmost of the last
comma / last dot is the decimal separator when at most 2 digits follow it;
otherwise every comma and dot is a thousands separator and is stripped
before the (exact decimal) conversion. -/
def parsePriceSpec (s : List Char) : ℚ :=
  let cleaned := s.filter keepPriceChar
  let sepIdx : Option Nat :=
    match lastIdx ',' cleaned, lastIdx '.' cleaned with
    | some i, some j => some (max i j)
    | some i, none => some i
    | none, some j => some j
    | none, none => none
  match sepIdx with
  | some i =>
    let after := cleaned.drop (i + 1)
    if after.length ≤ 2 then
      (natOfDigits ((cleaned.take i).filter Char.isDigit) : ℚ) + fracOfDigits after
    else (natOfDigits (cleaned.filter Char.isDigit) : ℚ)
  | none => (natOfDigits (cleaned.filter Char.isDigit) : ℚ)

/-- Match of `(20dd)` at the start of the string: the parenthesized case of
the claim's description of the year bonus (C5), which restricts it to
`20xx` tokens. -/
def paren20At (s : List Char) : Bool :=
  match s with
  | c0 :: c1 :: c2 :: d1 :: d2 :: c5 :: _ =>
    c0 == '(' && c1 == '2' && c2 == '0' && d1.isDigit && d2.isDigit && c5 == ')'
  | _ => false

/-- `(20dd)` tested anywhere in the string. -/
def containsParen20 : List Char → Bool
  | [] => false
  | c :: rest => paren20At (c :: rest) || containsParen20 rest

/-- The claim's reading of the year-bonus condition (C5): a `20xx` token,
parenthesized or bare. -/
def yearIndicatorSpec (s : List Char) : Bool := containsParen20 s || contains20Go none s

/-- Declarative reading of `/\(\d{4}\)/`: the string splits around a
parenthesized run of exactly four digits. -/
def HasParenFourDigits (s : List Char) : Prop :=
  ∃ pre d1 d2 d3 d4 post,
    s = pre ++ '(' :: d1 :: d2 :: d3 :: d4 :: ')' :: post ∧
    d1.isDigit = true ∧ d2.isDigit = true ∧ d3.isDigit = true ∧ d4.isDigit = true

/-- Declarative reading of `/\b20\d{2}\b/`: the string splits around a
token `20dd` whose neighbours (when they exist) are non-word characters. -/
def HasBare20xx (s : List Char) : Prop :=
  ∃ pre d1 d2 post,
    s = pre ++ '2' :: '0' :: d1 :: d2 :: post ∧
    d1.isDigit = true ∧ d2.isDigit = true ∧
    (∀ c, pre.getLast? = some c → isWordChar c = false) ∧
    (∀ c, post.head? = some c → isWordChar c = false)

/-- Left-boundary condition for a candidate match position: the character
just before the scanner's current position is a non-word character, or the
position is the start of the whole string. -/
def PrevOk : Option Char → Prop
  | none => True
  | some c => isWordChar c = false

/-- Left-boundary condition for a match that sits after the prefix `pre`
inside a scan whose position was preceded by `prev`. -/
def BoundOk (prev : Option Char) (pre : List Char) : Prop :=
  match pre.getLast? with
  | some c => isWordChar c = false
  | none => PrevOk prev

/-- The JS number that `calculateMatchScore` parses out of a payload's
price string (`NaN` when the price is absent). -/
def priceVal (p : CRProduct) : JSNum :=
  match p.price with
  | some s => parseFloatJS s
  | none => JSNum.nan

/-- A payload whose price string, if it parses at all, parses to a finite
non-negative number (rules out negative prices and the `Infinity`
literal). -/
def PriceOK (p : CRProduct) : Prop :=
  priceVal p = JSNum.nan ∨ ∃ q : ℚ, priceVal p = JSNum.num q ∧ 0 ≤ q

/-- Hypotheses under which the price-similarity criterion is well behaved
for a pair of payloads: both prices are `NaN`-or-finite-non-negative and
they do not both parse to exactly 0 (JS would divide 0 by 0 there). -/
def PriceOKPair (p q : CRProduct) : Prop :=
  PriceOK p ∧ PriceOK q ∧ ¬(priceVal p = JSNum.num 0 ∧ priceVal q = JSNum.num 0)

/-! ## Helper lemmas -/

theorem lev_nil_left (b : List Char) : levenshteinDistance [] b = b.length := by
  simp [levenshteinDistance]

theorem lev_nil_right (a : List Char) : levenshteinDistance a [] = a.length := by
  cases a <;> simp [levenshteinDistance]

theorem lev_cons_cons (x y : Char) (xs ys : List Char) :
    levenshteinDistance (x :: xs) (y :: ys) =
      if x = y then levenshteinDistance xs ys
      else
        min (levenshteinDistance xs ys)
          (min (levenshteinDistance (x :: xs) ys) (levenshteinDistance xs (y :: ys))) + 1 := by
  simp [levenshteinDistance]

theorem lev_self (a : List Char) : levenshteinDistance a a = 0 := by
  induction a with
  | nil => simp [levenshteinDistance]
  | cons x xs ih => rw [lev_cons_cons, if_pos rfl, ih]

theorem lev_comm_aux :
    ∀ (n : Nat) (a b : List Char), a.length + b.length ≤ n →
      levenshteinDistance a b = levenshteinDistance b a := by
  intro n
  induction n with
  | zero =>
    intro a b h
    have ha : a = [] := by cases a <;> simp_all
    have hb : b = [] := by cases b <;> simp_all
    subst ha; subst hb; rfl
  | succ n ih =>
    intro a b h
    match a, b with
    | [], b => rw [lev_nil_left, lev_nil_right]
    | a, [] => rw [lev_nil_left, lev_nil_right]
    | x :: xs, y :: ys =>
      simp only [List.length_cons] at h
      rw [lev_cons_cons, lev_cons_cons]
      by_cases hxy : x = y
      · subst hxy
        rw [if_pos rfl, if_pos rfl]
        exact ih xs ys (by omega)
      · rw [if_neg hxy, if_neg (Ne.symm hxy)]
        rw [ih xs ys (by omega), ih (x :: xs) ys (by simp; omega),
            ih xs (y :: ys) (by simp; omega)]
        rw [min_comm (levenshteinDistance ys (x :: xs)) (levenshteinDistance (y :: ys) xs)]

theorem lev_comm (a b : List Char) : levenshteinDistance a b = levenshteinDistance b a :=
  lev_comm_aux (a.length + b.length) a b le_rfl

theorem lev_le_max_aux :
    ∀ (n : Nat) (a b : List Char), a.length + b.length ≤ n →
      levenshteinDistance a b ≤ max a.length b.length := by
  intro n
  induction n with
  | zero =>
    intro a b h
    have ha : a = [] := by cases a <;> simp_all
    have hb : b = [] := by cases b <;> simp_all
    subst ha; subst hb; simp [levenshteinDistance]
  | succ n ih =>
    intro a b h
    match a, b with
    | [], b => rw [lev_nil_left]; simp
    | a, [] => rw [lev_nil_right]; simp
    | x :: xs, y :: ys =>
      simp only [List.length_cons] at h
      have hd := ih xs ys (by omega)
      rw [lev_cons_cons]
      by_cases hxy : x = y
      · rw [if_pos hxy]
        simp only [List.length_cons]
        omega
      · rw [if_neg hxy]
        have hmin : min (levenshteinDistance xs ys)
            (min (levenshteinDistance (x :: xs) ys) (levenshteinDistance xs (y :: ys))) ≤
            levenshteinDistance xs ys := min_le_left _ _
        simp only [List.length_cons]
        omega

theorem lev_le_max (a b : List Char) :
    levenshteinDistance a b ≤ max a.length b.length :=
  lev_le_max_aux (a.length + b.length) a b le_rfl

theorem sim_comm (a b : List Char) :
    calculateStringSimilarity a b = calculateStringSimilarity b a := by
  unfold calculateStringSimilarity
  rw [lev_comm, Nat.max_comm]

theorem sim_self (a : List Char) : calculateStringSimilarity a a = 1 := by
  unfold calculateStringSimilarity
  rcases Nat.eq_zero_or_pos (max a.length a.length) with h | h
  · rw [if_pos h]
  · rw [if_neg (Nat.pos_iff_ne_zero.mp h), lev_self]
    push_cast
    rw [sub_zero, div_self]
    exact_mod_cast Nat.pos_iff_ne_zero.mp h

theorem sim_nonneg (a b : List Char) : 0 ≤ calculateStringSimilarity a b := by
  unfold calculateStringSimilarity
  rcases Nat.eq_zero_or_pos (max a.length b.length) with h | h
  · rw [if_pos h]; norm_num
  · rw [if_neg (Nat.pos_iff_ne_zero.mp h)]
    apply div_nonneg
    · have h1 : (levenshteinDistance a b : ℚ) ≤ ((max a.length b.length : ℕ) : ℚ) :=
        Nat.cast_le.mpr (lev_le_max a b)
      linarith
    · exact_mod_cast Nat.zero_le _

theorem sim_le_one (a b : List Char) : calculateStringSimilarity a b ≤ 1 := by
  unfold calculateStringSimilarity
  rcases Nat.eq_zero_or_pos (max a.length b.length) with h | h
  · rw [if_pos h]
  · rw [if_neg (Nat.pos_iff_ne_zero.mp h)]
    rw [div_le_one (by exact_mod_cast h)]
    have : (0 : ℚ) ≤ (levenshteinDistance a b : ℚ) := by exact_mod_cast Nat.zero_le _
    linarith

theorem keep_not_ws {c : Char} (h : keepPriceChar c = true) : isWsChar c = false := by
  cases hw : isWsChar c with
  | false => rfl
  | true =>
    exfalso
    simp only [isWsChar, Bool.or_eq_true, decide_eq_true_eq] at hw
    rcases hw with ((((h1 | h1) | h1) | h1) | h1) | h1 <;> subst h1 <;> exact absurd h (by decide)

theorem not_listStartsWith_Infinity {l : List Char}
    (h : ∀ c ∈ l, keepPriceChar c = true) : listStartsWith ("Infinity".toList) l = false := by
  cases l with
  | nil => rfl
  | cons c r =>
    have hkeep := h c (List.mem_cons_self c r)
    have hne : c ≠ 'I' := by intro he; subst he; exact absurd hkeep (by decide)
    have hbeq : ('I' == c) = false := beq_eq_false_iff_ne.mpr (Ne.symm hne)
    rw [show ("Infinity".toList) = 'I' :: ("nfinity".toList) from rfl]
    simp [listStartsWith, hbeq]

theorem dropWhile_keep_eq_self {l : List Char} (h : ∀ c ∈ l, keepPriceChar c = true) :
    l.dropWhile isWsChar = l := by
  cases l with
  | nil => rfl
  | cons c r =>
    exact List.dropWhile_cons_of_neg (by simp [keep_not_ws (h c (List.mem_cons_self c r))])

theorem parseFloatJS_keep_eq_tail {l : List Char} (h : ∀ c ∈ l, keepPriceChar c = true) :
    parseFloatJS l = parseFloatTail 1 l := by
  unfold parseFloatJS
  rw [dropWhile_keep_eq_self h]
  cases l with
  | nil => rfl
  | cons c r =>
    have hkeep := h c (List.mem_cons_self c r)
    have h1 : c ≠ '+' := by intro he; subst he; exact absurd hkeep (by decide)
    have h2 : c ≠ '-' := by intro he; subst he; exact absurd hkeep (by decide)
    split
    · rename_i heq
      exact absurd (List.cons_eq_cons.mp heq).1 h1
    · rename_i heq
      exact absurd (List.cons_eq_cons.mp heq).1 h2
    · rfl

theorem qTenPow_nonneg (e : Int) : 0 ≤ qTenPow e := by
  cases e with
  | ofNat n => exact pow_nonneg (by norm_num) n
  | negSucc n => exact div_nonneg zero_le_one (pow_nonneg (by norm_num) (n + 1))

theorem parseFloatTail_one_cases (l : List Char)
    (hinf : listStartsWith ("Infinity".toList) l = false) :
    parseFloatTail 1 l = JSNum.nan ∨
      ∃ q : ℚ, parseFloatTail 1 l = JSNum.num q ∧ 0 ≤ q := by
  simp only [parseFloatTail, hinf, Bool.false_eq_true, if_false]
  split
  · exact Or.inl rfl
  · refine Or.inr ⟨_, rfl, ?_⟩
    have h1 : (0 : ℚ) ≤ (natOfDigits (l.takeWhile Char.isDigit) : ℚ) := Nat.cast_nonneg _
    have h2 : (0 : ℚ) ≤ fracOfDigits (match l.drop (l.takeWhile Char.isDigit).length with
        | '.' :: t => t.takeWhile Char.isDigit
        | _ => []) := by
      unfold fracOfDigits
      apply div_nonneg (Nat.cast_nonneg _)
      positivity
    have h3 : (0 : ℚ) ≤ qTenPow (expOf (match l.drop (l.takeWhile Char.isDigit).length with
        | '.' :: t => t.drop (t.takeWhile Char.isDigit).length
        | _ => l.drop (l.takeWhile Char.isDigit).length)) := qTenPow_nonneg _
    calc (0 : ℚ) ≤ (1 * ((natOfDigits (l.takeWhile Char.isDigit) : ℚ) +
          fracOfDigits _) * qTenPow (expOf _)) := by
          apply mul_nonneg (mul_nonneg zero_le_one (add_nonneg h1 h2)) h3
      _ = _ := rfl

theorem parseFloatJS_keep_cases {l : List Char} (h : ∀ c ∈ l, keepPriceChar c = true) :
    parseFloatJS l = JSNum.nan ∨ ∃ q : ℚ, parseFloatJS l = JSNum.num q ∧ 0 ≤ q := by
  rw [parseFloatJS_keep_eq_tail h]
  exact parseFloatTail_one_cases l (not_listStartsWith_Infinity h)

theorem mem_replaceFirstCh {c t r : Char} :
    ∀ {l : List Char}, c ∈ replaceFirstCh t r l → c ∈ l ∨ c = r := by
  intro l
  induction l with
  | nil => intro h; exact absurd h (List.not_mem_nil c)
  | cons x xs ih =>
    intro h
    simp only [replaceFirstCh] at h
    by_cases hx : x = t
    · rw [if_pos hx] at h
      rcases List.mem_cons.mp h with h | h
      · exact Or.inr h
      · exact Or.inl (List.mem_cons_of_mem _ h)
    · rw [if_neg hx] at h
      rcases List.mem_cons.mp h with h | h
      · exact Or.inl (h ▸ List.mem_cons_self _ _)
      · rcases ih h with h | h
        · exact Or.inl (List.mem_cons_of_mem _ h)
        · exact Or.inr h

theorem mem_cleanedPrice {c : Char} {l : List Char} (h : c ∈ cleanedPrice l) :
    c ∈ l ∨ c = '.' := by
  unfold cleanedPrice at h
  repeat' split at h
  all_goals
    first
    | exact Or.inl (List.mem_of_mem_filter h)
    | (rcases mem_replaceFirstCh h with h' | h'
       · exact Or.inl (List.mem_of_mem_filter h')
       · exact Or.inr h')

theorem keep_mem_cleaned {s : List Char} {c : Char}
    (h : c ∈ cleanedPrice (s.filter keepPriceChar)) : keepPriceChar c = true := by
  rcases mem_cleanedPrice h with h | h
  · exact List.of_mem_filter h
  · subst h; decide

theorem parsePrice_nonneg (s : List Char) : 0 ≤ parsePrice s := by
  unfold parsePrice
  rcases parseFloatJS_keep_cases (fun c hc => keep_mem_cleaned hc) with h | ⟨q, hq, hq0⟩
  · rw [h]; norm_num [jsNumOrZero]
  · rw [hq]; exact hq0

theorem takeWhile_isDigit_no {l : List Char} (h : ∀ c ∈ l, c.isDigit = false) :
    l.takeWhile Char.isDigit = [] := by
  cases l with
  | nil => rfl
  | cons c r => simp [List.takeWhile_cons, h c (List.mem_cons_self c r)]

theorem takeWhile_all {p : Char → Bool} {l : List Char} (h : ∀ c ∈ l, p c = true) :
    l.takeWhile p = l := by
  induction l with
  | nil => rfl
  | cons c r ih =>
    simp [List.takeWhile_cons, h c (List.mem_cons_self c r),
      ih (fun x hx => h x (List.mem_cons_of_mem _ hx))]

theorem parseFloatTail_no_digit {l : List Char}
    (hk : ∀ c ∈ l, keepPriceChar c = true)
    (hd : ∀ c ∈ l, c.isDigit = false) : parseFloatTail 1 l = JSNum.nan := by
  simp only [parseFloatTail, not_listStartsWith_Infinity hk, Bool.false_eq_true, if_false]
  rw [takeWhile_isDigit_no hd]
  have hfp : (match l.drop (List.length ([] : List Char)) with
      | '.' :: t => t.takeWhile Char.isDigit
      | _ => []) = ([] : List Char) := by
    simp only [List.length_nil, List.drop_zero]
    split
    · rename_i x t
      exact takeWhile_isDigit_no (fun y hy => hd y (List.mem_cons_of_mem _ hy))
    · rfl
  rw [hfp]
  simp

theorem parsePrice_no_digit {s : List Char} (h : ∀ c ∈ s, c.isDigit = false) :
    parsePrice s = 0 := by
  unfold parsePrice
  have hk : ∀ c ∈ cleanedPrice (s.filter keepPriceChar), keepPriceChar c = true :=
    fun c hc => keep_mem_cleaned hc
  have hd : ∀ c ∈ cleanedPrice (s.filter keepPriceChar), c.isDigit = false := by
    intro c hc
    rcases mem_cleanedPrice hc with h' | h'
    · exact h c (List.mem_of_mem_filter h')
    · subst h'; decide
  rw [parseFloatJS_keep_eq_tail hk, parseFloatTail_no_digit hk hd]
  rfl

theorem digit_ne_of_not_digit {c t : Char} (hc : c.isDigit = true) (ht : t.isDigit = false) :
    c ≠ t := by
  intro h; subst h; rw [hc] at ht; exact Bool.noConfusion ht

theorem parseFloat_digits_dot {d c : List Char}
    (hd : ∀ x ∈ d, x.isDigit = true) (hc : ∀ x ∈ c, x.isDigit = true) :
    jsNumOrZero (parseFloatJS (d ++ '.' :: c)) = (natOfDigits d : ℚ) + fracOfDigits c := by
  have hk : ∀ x ∈ d ++ '.' :: c, keepPriceChar x = true := by
    intro x hx
    rcases List.mem_append.mp hx with h | h
    · simp [keepPriceChar, hd x h]
    · rcases List.mem_cons.mp h with h | h
      · subst h; decide
      · simp [keepPriceChar, hc x h]
  rw [parseFloatJS_keep_eq_tail hk]
  have hip : (d ++ '.' :: c).takeWhile Char.isDigit = d := by
    rw [List.takeWhile_append_of_pos hd, List.takeWhile_cons, if_neg (by decide),
      List.append_nil]
  have hdrop : (d ++ '.' :: c).drop d.length = '.' :: c := List.drop_left d ('.' :: c)
  simp only [parseFloatTail, not_listStartsWith_Infinity hk, Bool.false_eq_true, if_false,
    hip, hdrop, takeWhile_all hc, List.drop_length]
  cases hde : d.isEmpty with
  | true =>
    cases hce : c.isEmpty with
    | true =>
      rw [List.isEmpty_iff] at hde hce
      subst hde; subst hce
      simp [jsNumOrZero, natOfDigits, fracOfDigits]
    | false =>
      simp only [hde, hce, Bool.and_false, Bool.false_eq_true, if_false]
      simp [jsNumOrZero, expOf, qTenPow]
  | false =>
    simp only [hde, Bool.false_and, Bool.false_eq_true, if_false]
    simp [jsNumOrZero, expOf, qTenPow]

theorem lastIdx_eq_none {t : Char} : ∀ {l : List Char}, (∀ c ∈ l, c ≠ t) → lastIdx t l = none := by
  intro l
  induction l with
  | nil => intro _; rfl
  | cons c r ih =>
    intro h
    simp only [lastIdx, ih (fun x hx => h x (List.mem_cons_of_mem _ hx))]
    rw [if_neg (h c (List.mem_cons_self c r))]

theorem lastIdx_append (t : Char) (l1 l2 : List Char) :
    lastIdx t (l1 ++ l2) =
      match lastIdx t l2 with
      | some n => some (l1.length + n)
      | none => lastIdx t l1 := by
  induction l1 with
  | nil => cases h : lastIdx t l2 <;> simp [h, lastIdx]
  | cons c r ih =>
    simp only [List.cons_append, lastIdx, List.append_eq, ih]
    cases h : lastIdx t l2 with
    | none => rfl
    | some n => simp only [List.length_cons]; congr 1; omega

theorem removeAll_eq_self {t : Char} {l : List Char} (h : ∀ c ∈ l, c ≠ t) :
    removeAllCh t l = l :=
  List.filter_eq_self.mpr (fun c hc => by simp [bne_iff_ne, h c hc])

theorem removeAll_append (t : Char) (l1 l2 : List Char) :
    removeAllCh t (l1 ++ l2) = removeAllCh t l1 ++ removeAllCh t l2 :=
  List.filter_append _ _

theorem removeAll_cons_self (t : Char) (l : List Char) :
    removeAllCh t (t :: l) = removeAllCh t l := by
  simp [removeAllCh, List.filter_cons]

theorem removeAll_cons_ne {t c : Char} (h : c ≠ t) (l : List Char) :
    removeAllCh t (c :: l) = c :: removeAllCh t l := by
  simp [removeAllCh, List.filter_cons, bne_iff_ne, h]

theorem replaceFirst_append {t r : Char} {l1 : List Char} (l2 : List Char)
    (h : ∀ c ∈ l1, c ≠ t) :
    replaceFirstCh t r (l1 ++ l2) = l1 ++ replaceFirstCh t r l2 := by
  induction l1 with
  | nil => rfl
  | cons c cs ih =>
    simp only [List.cons_append, replaceFirstCh, List.append_eq,
      if_neg (h c (List.mem_cons_self c cs)), ih (fun x hx => h x (List.mem_cons_of_mem _ hx))]

theorem replaceFirst_head (t r : Char) (l : List Char) :
    replaceFirstCh t r (t :: l) = r :: l := by
  simp [replaceFirstCh]

theorem cleanedPrice_some_some {l : List Char} {i j : Nat}
    (hi : lastIdx ',' l = some i) (hj : lastIdx '.' l = some j) :
    cleanedPrice l =
      if j < i then
        (if (l.drop (i + 1)).length ≤ 2 then replaceFirstCh ',' '.' (removeAllCh '.' l)
         else removeAllCh ',' l)
      else if i < j then
        (if (l.drop (j + 1)).length ≤ 2 then removeAllCh ',' l else removeAllCh ',' l)
      else l.filter (fun c => c != ',' && c != '.') := by
  unfold cleanedPrice
  rw [hi, hj]

/-- In a price string of the shape `digits , digits . digits` the dot is
the rightmost separator, so `parsePrice` strips the commas, keeps the dot
and reads `digits-before-dot.digits-after-dot` — whatever the number of
digits after the dot. -/
theorem parsePrice_dot_last (a b c : List Char)
    (ha : ∀ x ∈ a, x.isDigit = true) (hb : ∀ x ∈ b, x.isDigit = true)
    (hc : ∀ x ∈ c, x.isDigit = true) :
    parsePrice (a ++ ',' :: (b ++ '.' :: c)) =
      (natOfDigits (a ++ b) : ℚ) + fracOfDigits c := by
  have hA : ∀ x ∈ a, x ≠ ',' := fun x hx => digit_ne_of_not_digit (ha x hx) (by decide)
  have hB : ∀ x ∈ b, x ≠ ',' := fun x hx => digit_ne_of_not_digit (hb x hx) (by decide)
  have hC : ∀ x ∈ c, x ≠ ',' := fun x hx => digit_ne_of_not_digit (hc x hx) (by decide)
  have hkeep : ∀ x ∈ a ++ ',' :: (b ++ '.' :: c), keepPriceChar x = true := by
    intro x hx
    rcases List.mem_append.mp hx with h | h
    · simp [keepPriceChar, ha x h]
    · rcases List.mem_cons.mp h with h | h
      · subst h; decide
      · rcases List.mem_append.mp h with h | h
        · simp [keepPriceChar, hb x h]
        · rcases List.mem_cons.mp h with h | h
          · subst h; decide
          · simp [keepPriceChar, hc x h]
  unfold parsePrice
  rw [List.filter_eq_self.mpr hkeep]
  have hbc : lastIdx ',' (b ++ '.' :: c) = none := by
    apply lastIdx_eq_none
    intro x hx
    rcases List.mem_append.mp hx with h | h
    · exact hB x h
    · rcases List.mem_cons.mp h with h | h
      · subst h; decide
      · exact hC x h
  have hin : lastIdx ',' (',' :: (b ++ '.' :: c)) = some 0 := by
    simp [lastIdx, hbc]
  have hcomma : lastIdx ',' (a ++ ',' :: (b ++ '.' :: c)) = some a.length := by
    rw [lastIdx_append, hin]; simp
  have hCdot : ∀ x ∈ c, x ≠ '.' := fun x hx => digit_ne_of_not_digit (hc x hx) (by decide)
  have hdotc : lastIdx '.' ('.' :: c) = some 0 := by
    simp [lastIdx, lastIdx_eq_none hCdot]
  have hdot_bc : lastIdx '.' (b ++ '.' :: c) = some b.length := by
    rw [lastIdx_append, hdotc]; simp
  have hdot_in : lastIdx '.' (',' :: (b ++ '.' :: c)) = some (b.length + 1) := by
    simp [lastIdx, hdot_bc]
  have hdot : lastIdx '.' (a ++ ',' :: (b ++ '.' :: c)) = some (a.length + (b.length + 1)) := by
    rw [lastIdx_append, hdot_in]
  rw [cleanedPrice_some_some hcomma hdot, if_neg (by omega), if_pos (by omega), ite_self]
  have hrm : removeAllCh ',' (a ++ ',' :: (b ++ '.' :: c)) = a ++ (b ++ '.' :: c) := by
    rw [removeAll_append, removeAll_eq_self hA, removeAll_cons_self, removeAll_append,
      removeAll_eq_self hB, removeAll_cons_ne (by decide), removeAll_eq_self hC]
  rw [hrm, ← List.append_assoc]
  exact parseFloat_digits_dot (fun x hx => (List.mem_append.mp hx).elim (ha x) (hb x)) hc

/-- Shared index computations for price strings of the shape
`digits . digits , digits`: the comma is the rightmost separator and the
text after it is exactly `c`. -/
theorem parsePrice_comma_last_core (a b c : List Char)
    (ha : ∀ x ∈ a, x.isDigit = true) (hb : ∀ x ∈ b, x.isDigit = true)
    (hc : ∀ x ∈ c, x.isDigit = true) :
    parsePrice (a ++ '.' :: (b ++ ',' :: c)) =
      jsNumOrZero (parseFloatJS
        (if c.length ≤ 2 then
          replaceFirstCh ',' '.' (removeAllCh '.' (a ++ '.' :: (b ++ ',' :: c)))
         else removeAllCh ',' (a ++ '.' :: (b ++ ',' :: c)))) := by
  have hkeep : ∀ x ∈ a ++ '.' :: (b ++ ',' :: c), keepPriceChar x = true := by
    intro x hx
    rcases List.mem_append.mp hx with h | h
    · simp [keepPriceChar, ha x h]
    · rcases List.mem_cons.mp h with h | h
      · subst h; decide
      · rcases List.mem_append.mp h with h | h
        · simp [keepPriceChar, hb x h]
        · rcases List.mem_cons.mp h with h | h
          · subst h; decide
          · simp [keepPriceChar, hc x h]
  have hCc : ∀ x ∈ c, x ≠ ',' := fun x hx => digit_ne_of_not_digit (hc x hx) (by decide)
  have hBd : ∀ x ∈ b, x ≠ '.' := fun x hx => digit_ne_of_not_digit (hb x hx) (by decide)
  have hCd : ∀ x ∈ c, x ≠ '.' := fun x hx => digit_ne_of_not_digit (hc x hx) (by decide)
  unfold parsePrice
  rw [List.filter_eq_self.mpr hkeep]
  have hcc : lastIdx ',' (',' :: c) = some 0 := by
    simp [lastIdx, lastIdx_eq_none hCc]
  have hcomma_bc : lastIdx ',' (b ++ ',' :: c) = some b.length := by
    rw [lastIdx_append, hcc]; simp
  have hcomma_in : lastIdx ',' ('.' :: (b ++ ',' :: c)) = some (b.length + 1) := by
    simp [lastIdx, hcomma_bc]
  have hcomma : lastIdx ',' (a ++ '.' :: (b ++ ',' :: c)) =
      some (a.length + (b.length + 1)) := by
    rw [lastIdx_append, hcomma_in]
  have hdot_bc : lastIdx '.' (b ++ ',' :: c) = none := by
    apply lastIdx_eq_none
    intro x hx
    rcases List.mem_append.mp hx with h | h
    · exact hBd x h
    · rcases List.mem_cons.mp h with h | h
      · subst h; decide
      · exact hCd x h
  have hdot_in : lastIdx '.' ('.' :: (b ++ ',' :: c)) = some 0 := by
    simp [lastIdx, hdot_bc]
  have hdot : lastIdx '.' (a ++ '.' :: (b ++ ',' :: c)) = some a.length := by
    rw [lastIdx_append, hdot_in]; simp
  rw [cleanedPrice_some_some hcomma hdot, if_pos (by omega)]
  have hsplit : a ++ '.' :: (b ++ ',' :: c) = (a ++ '.' :: (b ++ [','])) ++ c := by
    simp [List.append_assoc]
  have hdropc : (a ++ '.' :: (b ++ ',' :: c)).drop (a.length + (b.length + 1) + 1) = c := by
    rw [hsplit]
    apply List.drop_left'
    simp only [List.length_append, List.length_cons, List.length_nil]
    omega
  rw [hdropc]

/-- `digits . digits , d₁d₂` (at most two digits after the rightmost
separator, a comma): the comma is taken as the decimal separator, the dot
is stripped as a thousands separator. -/
theorem parsePrice_comma_last_le2 (a b c : List Char)
    (ha : ∀ x ∈ a, x.isDigit = true) (hb : ∀ x ∈ b, x.isDigit = true)
    (hc : ∀ x ∈ c, x.isDigit = true) (hlen : c.length ≤ 2) :
    parsePrice (a ++ '.' :: (b ++ ',' :: c)) =
      (natOfDigits (a ++ b) : ℚ) + fracOfDigits c := by
  rw [parsePrice_comma_last_core a b c ha hb hc, if_pos hlen]
  have hA : ∀ x ∈ a, x ≠ '.' := fun x hx => digit_ne_of_not_digit (ha x hx) (by decide)
  have hBd : ∀ x ∈ b, x ≠ '.' := fun x hx => digit_ne_of_not_digit (hb x hx) (by decide)
  have hCd : ∀ x ∈ c, x ≠ '.' := fun x hx => digit_ne_of_not_digit (hc x hx) (by decide)
  have hrm : removeAllCh '.' (a ++ '.' :: (b ++ ',' :: c)) = (a ++ b) ++ ',' :: c := by
    rw [removeAll_append, removeAll_eq_self hA, removeAll_cons_self, removeAll_append,
      removeAll_eq_self hBd, removeAll_cons_ne (by decide), removeAll_eq_self hCd,
      List.append_assoc]
  rw [hrm, replaceFirst_append (',' :: c)
      (fun x hx => (List.mem_append.mp hx).elim
        (fun h => digit_ne_of_not_digit (ha x h) (by decide))
        (fun h => digit_ne_of_not_digit (hb x h) (by decide))),
    replaceFirst_head]
  exact parseFloat_digits_dot
    (fun x hx => (List.mem_append.mp hx).elim (ha x) (hb x)) hc

/-- `digits . digits , digits` with more than two digits after the
rightmost separator (the comma): only the commas are stripped; the dot is
kept and still acts as the decimal separator, so the digits after the
comma are appended to the fractional part. -/
theorem parsePrice_comma_last_gt2 (a b c : List Char)
    (ha : ∀ x ∈ a, x.isDigit = true) (hb : ∀ x ∈ b, x.isDigit = true)
    (hc : ∀ x ∈ c, x.isDigit = true) (hlen : 2 < c.length) :
    parsePrice (a ++ '.' :: (b ++ ',' :: c)) =
      (natOfDigits a : ℚ) + fracOfDigits (b ++ c) := by
  rw [parsePrice_comma_last_core a b c ha hb hc, if_neg (by omega)]
  have hA : ∀ x ∈ a, x ≠ ',' := fun x hx => digit_ne_of_not_digit (ha x hx) (by decide)
  have hB : ∀ x ∈ b, x ≠ ',' := fun x hx => digit_ne_of_not_digit (hb x hx) (by decide)
  have hC : ∀ x ∈ c, x ≠ ',' := fun x hx => digit_ne_of_not_digit (hc x hx) (by decide)
  have hrm : removeAllCh ',' (a ++ '.' :: (b ++ ',' :: c)) = a ++ '.' :: (b ++ c) := by
    rw [removeAll_append, removeAll_eq_self hA, removeAll_cons_ne (by decide),
      removeAll_append, removeAll_eq_self hB, removeAll_cons_self, removeAll_eq_self hC]
  rw [hrm]
  exact parseFloat_digits_dot ha (fun x hx => (List.mem_append.mp hx).elim (hb x) (hc x))

theorem parenYearAt_eq_true {s : List Char} (h : parenYearAt s = true) :
    ∃ d1 d2 d3 d4 post, s = '(' :: d1 :: d2 :: d3 :: d4 :: ')' :: post ∧
      d1.isDigit = true ∧ d2.isDigit = true ∧ d3.isDigit = true ∧ d4.isDigit = true := by
  unfold parenYearAt at h
  split at h
  · rename_i c0 d1 d2 d3 d4 c5 rest
    simp only [Bool.and_eq_true, beq_iff_eq] at h
    obtain ⟨⟨⟨⟨⟨h0, h1⟩, h2⟩, h3⟩, h4⟩, h5⟩ := h
    subst h0; subst h5
    exact ⟨d1, d2, d3, d4, rest, rfl, h1, h2, h3, h4⟩
  · exact absurd h (by simp)

theorem containsParenYear_iff (s : List Char) :
    containsParenYear s = true ↔ HasParenFourDigits s := by
  induction s with
  | nil =>
    constructor
    · intro h; exact absurd h (by simp [containsParenYear])
    · rintro ⟨pre, d1, d2, d3, d4, post, heq, _⟩
      cases pre <;> simp at heq
  | cons ch rest ih =>
    simp only [containsParenYear, Bool.or_eq_true, ih]
    constructor
    · rintro (h | h)
      · obtain ⟨d1, d2, d3, d4, post, heq, h1, h2, h3, h4⟩ := parenYearAt_eq_true h
        exact ⟨[], d1, d2, d3, d4, post, by rw [heq]; rfl, h1, h2, h3, h4⟩
      · obtain ⟨pre, d1, d2, d3, d4, post, heq, hd⟩ := h
        exact ⟨ch :: pre, d1, d2, d3, d4, post, by rw [List.cons_append, heq], hd⟩
    · rintro ⟨pre, d1, d2, d3, d4, post, heq, h1, h2, h3, h4⟩
      cases pre with
      | nil =>
        left
        simp only [List.nil_append] at heq
        rw [heq]
        simp [parenYearAt, h1, h2, h3, h4]
      | cons p ps =>
        right
        rw [List.cons_append] at heq
        obtain ⟨hch, hrest⟩ := List.cons_eq_cons.mp heq
        exact ⟨ps, d1, d2, d3, d4, post, hrest, h1, h2, h3, h4⟩

theorem bare20At_eq_true {prev : Option Char} {s : List Char} (h : bare20At prev s = true) :
    ∃ d1 d2 post, s = '2' :: '0' :: d1 :: d2 :: post ∧ d1.isDigit = true ∧ d2.isDigit = true ∧
      PrevOk prev ∧ (∀ c, post.head? = some c → isWordChar c = false) := by
  unfold bare20At at h
  split at h
  · rename_i c0 c1 d1 d2 rest
    simp only [Bool.and_eq_true, beq_iff_eq] at h
    obtain ⟨⟨⟨⟨⟨h0, h1⟩, hd1⟩, hd2⟩, hp⟩, hb⟩ := h
    subst h0; subst h1
    refine ⟨d1, d2, rest, rfl, hd1, hd2, ?_, ?_⟩
    · cases prev with
      | none => trivial
      | some c => simpa [PrevOk] using hp
    · intro c hc
      cases rest with
      | nil => simp at hc
      | cons r rs =>
        simp only [List.head?_cons, Option.some.injEq] at hc
        subst hc
        simpa using hb
  · exact absurd h (by simp)

theorem contains20Go_iff : ∀ (s : List Char) (prev : Option Char),
    contains20Go prev s = true ↔
      ∃ pre d1 d2 post, s = pre ++ '2' :: '0' :: d1 :: d2 :: post ∧
        d1.isDigit = true ∧ d2.isDigit = true ∧ BoundOk prev pre ∧
        (∀ c, post.head? = some c → isWordChar c = false) := by
  intro s
  induction s with
  | nil =>
    intro prev
    constructor
    · intro h; exact absurd h (by simp [contains20Go])
    · rintro ⟨pre, d1, d2, post, heq, _⟩
      cases pre <;> simp at heq
  | cons ch rest ih =>
    intro prev
    simp only [contains20Go, Bool.or_eq_true, ih (some ch)]
    constructor
    · rintro (h | h)
      · obtain ⟨d1, d2, post, heq, hd1, hd2, hp, hb⟩ := bare20At_eq_true h
        refine ⟨[], d1, d2, post, by rw [List.nil_append, heq], hd1, hd2, ?_, hb⟩
        simpa [BoundOk] using hp
      · obtain ⟨pre, d1, d2, post, heq, hd1, hd2, hB, hb⟩ := h
        refine ⟨ch :: pre, d1, d2, post, by rw [List.cons_append, heq], hd1, hd2, ?_, hb⟩
        cases pre with
        | nil =>
          simp only [BoundOk, List.getLast?_singleton]
          simpa [BoundOk, PrevOk] using hB
        | cons q qs =>
          simp only [BoundOk, List.getLast?_cons_cons] at hB ⊢
          exact hB
    · rintro ⟨pre, d1, d2, post, heq, hd1, hd2, hB, hb⟩
      cases pre with
      | nil =>
        left
        simp only [List.nil_append] at heq
        rw [heq]
        simp only [bare20At, hd1, hd2, Bool.and_eq_true, beq_iff_eq]
        refine ⟨⟨⟨⟨⟨trivial, trivial⟩, trivial⟩, trivial⟩, ?_⟩, ?_⟩
        · cases prev with
          | none => rfl
          | some c =>
            simp only [BoundOk, List.getLast?_nil, PrevOk] at hB
            simp [hB]
        · cases post with
          | nil => rfl
          | cons r rs => simp [hb r rfl]
      | cons p ps =>
        right
        rw [List.cons_append] at heq
        obtain ⟨hch, hrest⟩ := List.cons_eq_cons.mp heq
        subst hch
        refine ⟨ps, d1, d2, post, hrest, hd1, hd2, ?_, hb⟩
        cases ps with
        | nil =>
          simp only [BoundOk, PrevOk]
          simpa [BoundOk, List.getLast?_singleton] using hB
        | cons q qs =>
          simp only [BoundOk, List.getLast?_cons_cons] at hB ⊢
          exact hB

theorem JSNum.add_num (a b : ℚ) : JSNum.add (JSNum.num a) (JSNum.num b) = JSNum.num (a + b) := rfl

theorem JSNum.sub_num (a b : ℚ) : JSNum.sub (JSNum.num a) (JSNum.num b) = JSNum.num (a - b) := by
  simp [JSNum.sub, JSNum.add, JSNum.neg, sub_eq_add_neg]

theorem JSNum.abs_num (a : ℚ) : JSNum.abs (JSNum.num a) = JSNum.num |a| := rfl

theorem JSNum.max2_num (a b : ℚ) :
    JSNum.max2 (JSNum.num a) (JSNum.num b) = JSNum.num (max a b) := rfl

theorem JSNum.mul_num (a b : ℚ) : JSNum.mul (JSNum.num a) (JSNum.num b) = JSNum.num (a * b) := rfl

theorem JSNum.div_num_of_ne {b : ℚ} (a : ℚ) (h : b ≠ 0) :
    JSNum.div (JSNum.num a) (JSNum.num b) = JSNum.num (a / b) := by
  simp [JSNum.div, h]

/-- Invariant carried through the three criterion steps: the running score
is a finite value between 0 and `2/5` times the criterion count. -/
def AccOK (acc : JSNum × Nat) : Prop :=
  ∃ S : ℚ, acc.1 = JSNum.num S ∧ 0 ≤ S ∧ S ≤ 2 / 5 * acc.2

theorem acc_step_ok {acc acc' : JSNum × Nat} (hacc : AccOK acc)
    (h : acc' = acc ∨
      ∃ x : ℚ, 0 ≤ x ∧ x ≤ 2 / 5 ∧ acc' = (JSNum.add acc.1 (JSNum.num x), acc.2 + 1)) :
    AccOK acc' := by
  obtain ⟨S, hS1, hS0, hSle⟩ := hacc
  rcases h with h | ⟨x, hx0, hxle, h⟩
  · subst h; exact ⟨S, hS1, hS0, hSle⟩
  · subst h
    refine ⟨S + x, ?_, by linarith, ?_⟩
    · simp [hS1, JSNum.add_num]
    · push_cast
      have : ((acc.2 : ℚ) + 1) = (acc.2 : ℚ) + 1 := rfl
      nlinarith [hx0, hxle, hS0, hSle]

theorem titleStep_ok (p q : CRProduct) {acc : JSNum × Nat} (hacc : AccOK acc) :
    AccOK (titleStep p q acc) := by
  apply acc_step_ok hacc
  unfold titleStep
  split
  · rename_i o1 o2 t1 t2 e1 e2
    split
    · exact Or.inl rfl
    · refine Or.inr ⟨calculateStringSimilarity (lowerL t1) (lowerL t2) * 0.40, ?_, ?_, ?_⟩
      · have := sim_nonneg (lowerL t1) (lowerL t2)
        nlinarith
      · have h1 := sim_le_one (lowerL t1) (lowerL t2)
        have h0 := sim_nonneg (lowerL t1) (lowerL t2)
        nlinarith
      · rw [JSNum.mul_num]
  · exact Or.inl rfl

theorem idStep_ok (p q : CRProduct) {acc : JSNum × Nat} (hacc : AccOK acc) :
    AccOK (idStep p q acc) := by
  apply acc_step_ok hacc
  unfold idStep
  split
  · rename_i o1 o2 id1 id2 e1 e2
    split
    · exact Or.inl rfl
    · refine Or.inr ⟨(if id1 = id2 then (1 : ℚ) else calculateStringSimilarity id1 id2) * 0.30,
        ?_, ?_, ?_⟩
      · split
        · norm_num
        · have := sim_nonneg id1 id2
          nlinarith
      · split
        · norm_num
        · have h1 := sim_le_one id1 id2
          have h0 := sim_nonneg id1 id2
          nlinarith
      · simp only [JSNum.mul_num]
  · exact Or.inl rfl

theorem priceStep_ok (p q : CRProduct) (hpair : PriceOKPair p q) {acc : JSNum × Nat}
    (hacc : AccOK acc) : AccOK (priceStep p q acc) := by
  obtain ⟨hp, hq, hz⟩ := hpair
  apply acc_step_ok hacc
  unfold priceStep
  split
  · rename_i o1 o2 p1 p2 e1 e2
    split
    · exact Or.inl rfl
    · rename_i hne
      have hv1 : priceVal p = parseFloatJS p1 := by rw [priceVal, e1]
      have hv2 : priceVal q = parseFloatJS p2 := by rw [priceVal, e2]
      split
      · exact Or.inl rfl
      · exact Or.inl rfl
      · rename_i a b hnot1 hnot2
        rcases hp with h1 | ⟨q1, hq1, hq1pos⟩
        · refine (hnot1 ?_).elim
          rw [← hv1]; exact h1
        rcases hq with h2 | ⟨q2, hq2, hq2pos⟩
        · refine (hnot2 ?_).elim
          rw [← hv2]; exact h2
        have hpq1 : parseFloatJS p1 = JSNum.num q1 := by rw [← hv1]; exact hq1
        have hpq2 : parseFloatJS p2 = JSNum.num q2 := by rw [← hv2]; exact hq2
        rw [hpq1, hpq2]
        have hmax : (0 : ℚ) < max q1 q2 := by
          by_cases h0 : q1 = 0
          · subst h0
            have hne2 : q2 ≠ 0 := by
              intro h0'
              exact hz ⟨by rw [hv1]; exact hpq1, by rw [hv2, hpq2, h0']⟩
            exact lt_max_of_lt_right (lt_of_le_of_ne hq2pos (Ne.symm hne2))
          · exact lt_max_of_lt_left (lt_of_le_of_ne hq1pos (Ne.symm h0))
        have hmaxne : max q1 q2 ≠ 0 := ne_of_gt hmax
        simp only [JSNum.sub_num, JSNum.abs_num, JSNum.max2_num,
          JSNum.div_num_of_ne _ hmaxne, JSNum.mul_num, JSNum.add_num]
        have hd0 : 0 ≤ |q1 - q2| / max q1 q2 := div_nonneg (abs_nonneg _) (le_of_lt hmax)
        refine Or.inr ⟨max 0 (1 - |q1 - q2| / max q1 q2 * 2) * 0.30, ?_, ?_, ?_⟩
        · have h1 := le_max_left (0 : ℚ) (1 - |q1 - q2| / max q1 q2 * 2)
          nlinarith
        · have h1 : max 0 (1 - |q1 - q2| / max q1 q2 * 2) ≤ 1 :=
            max_le (by norm_num) (by nlinarith)
          have h2 := le_max_left (0 : ℚ) (1 - |q1 - q2| / max q1 q2 * 2)
          nlinarith
        · rfl
  · exact Or.inl rfl

theorem matchScore_num_bound (p q : CRProduct) (h : PriceOKPair p q) :
    ∃ s : ℚ, calculateMatchScore p q = JSNum.num s ∧ 0 ≤ s ∧ s ≤ 2 / 5 := by
  unfold calculateMatchScore
  have hacc0 : AccOK (JSNum.num 0, 0) := ⟨0, rfl, le_refl 0, by norm_num⟩
  obtain ⟨S, hS1, hS0, hSle⟩ := idStep_ok p q (priceStep_ok p q h (titleStep_ok p q hacc0))
  by_cases hn : 0 < (idStep p q (priceStep p q (titleStep p q (JSNum.num 0, 0)))).2
  · rw [if_pos hn, hS1, JSNum.div_num_of_ne _
      (by exact_mod_cast Nat.pos_iff_ne_zero.mp hn)]
    refine ⟨_, rfl, ?_, ?_⟩
    · exact div_nonneg hS0 (Nat.cast_nonneg _)
    · rw [div_le_iff₀ (by exact_mod_cast hn)]
      exact hSle
  · rw [if_neg hn]
    exact ⟨0, rfl, le_refl 0, by norm_num⟩

theorem matchLoop_nil_of_low (pd : CRProduct) (fetchF : List Char → Option CRProduct)
    (hf : ∀ r cand, fetchF r = some cand →
      ∃ s : ℚ, calculateMatchScore pd cand = JSNum.num s ∧ s < 3 / 5) :
    ∀ regions, matchLoop pd fetchF regions = ([], [], []) := by
  intro regions
  induction regions with
  | nil => rfl
  | cons r rest ih =>
    unfold matchLoop
    by_cases hr : r = pd.region
    · rw [if_pos hr]; exact ih
    · rw [if_neg hr]
      cases hc : fetchF r with
      | none => exact ih
      | some cand =>
        obtain ⟨s, hs, hsle⟩ := hf r cand hc
        have hge : ∀ c : ℚ, s < c → JSNum.ge (JSNum.num s) c = false := by
          intro c hc'
          simp [JSNum.ge, not_le.mpr hc']
        simp only [hs, ih, hge 0.95 (by norm_num; linarith), hge 0.80 (by norm_num; linarith),
          hge 0.60 (by norm_num; linarith)]
        simp

theorem matchLoop_nil_of_bound (pd : CRProduct) (fetchF : List Char → Option CRProduct)
    (hf : ∀ r cand, fetchF r = some cand → PriceOKPair pd cand) :
    ∀ regions, matchLoop pd fetchF regions = ([], [], []) := by
  apply matchLoop_nil_of_low
  intro r cand hc
  obtain ⟨s, hs, hs0, hsle⟩ := matchScore_num_bound pd cand (hf r cand hc)
  exact ⟨s, hs, by linarith⟩

theorem matchBuckets_empty (pd : CRProduct) (fetchF : List Char → Option CRProduct)
    (regions : List (List Char)) (h : matchLoop pd fetchF regions = ([], [], [])) :
    matchProductsCrossRegion pd fetchF regions = ⟨[], [], [], true⟩ := by
  unfold matchProductsCrossRegion
  rw [h]
  rfl

theorem mergeSort_scored_pairwise (l : List ScoredProduct) :
    (l.mergeSort (fun a b => decide (b.relevanceScore ≤ a.relevanceScore))).Pairwise
      (fun a b => b.relevanceScore ≤ a.relevanceScore) := by
  have h := List.sorted_mergeSort
    (fun a b c (hab : decide (b.relevanceScore ≤ a.relevanceScore) = true)
        (hbc : decide (c.relevanceScore ≤ b.relevanceScore) = true) => by
      simp only [decide_eq_true_eq] at hab hbc ⊢
      exact le_trans hbc hab)
    (fun a b => by
      simp only [Bool.or_eq_true, decide_eq_true_eq]
      exact le_total b.relevanceScore a.relevanceScore)
    l
  exact h.imp (fun hab => by simpa using hab)

theorem filter_ge_append_filter_lt (c : ℚ) :
    ∀ l : List ScoredProduct,
      l.Pairwise (fun a b => b.relevanceScore ≤ a.relevanceScore) →
      l.filter (fun r => decide (c ≤ r.relevanceScore)) ++
        l.filter (fun r => decide (r.relevanceScore < c)) = l := by
  intro l
  induction l with
  | nil => intro _; rfl
  | cons x xs ih =>
    intro hp
    rcases List.pairwise_cons.mp hp with ⟨hx, hxs⟩
    by_cases hc : c ≤ x.relevanceScore
    · rw [List.filter_cons_of_pos (by simpa using hc),
        List.filter_cons_of_neg (by simp; linarith), List.cons_append, ih hxs]
    · push_neg at hc
      have hall : ∀ y ∈ xs, y.relevanceScore < c := fun y hy => lt_of_le_of_lt (hx y hy) hc
      rw [List.filter_cons_of_neg (by simpa using not_le.mpr hc),
        List.filter_cons_of_pos (by simpa using hc)]
      have h1 : xs.filter (fun r => decide (c ≤ r.relevanceScore)) = [] := by
        rw [List.filter_eq_nil_iff]
        intro y hy
        simp [not_le.mpr (hall y hy)]
      have h2 : xs.filter (fun r => decide (r.relevanceScore < c)) = xs :=
        List.filter_eq_self.mpr (fun y hy => by simp [hall y hy])
      rw [h1, h2, List.nil_append]

theorem boundOk_none_iff (pre : List Char) :
    BoundOk none pre ↔ ∀ c, pre.getLast? = some c → isWordChar c = false := by
  unfold BoundOk
  cases h : pre.getLast? with
  | none => simp [PrevOk]
  | some c => simp

theorem relevanceScore_year_split (productName searchQuery : List Char)
    (hn : productName ≠ []) (hq : searchQuery ≠ []) :
    calculateRelevanceScore productName searchQuery =
      relevanceScoreSansYear productName searchQuery +
        (if yearIndicator (lowerL productName) then (15 : ℚ) else 0) := by
  have hn' : productName.isEmpty = false := by
    cases productName with
    | nil => exact absurd rfl hn
    | cons x xs => rfl
  have hq' : searchQuery.isEmpty = false := by
    cases searchQuery with
    | nil => exact absurd rfl hq
    | cons x xs => rfl
  unfold calculateRelevanceScore relevanceScoreSansYear
  rw [hn', hq']
  simp only [Bool.or_self, Bool.false_eq_true, if_false]

/-- C7: every product record that `processListing` (the per-listing body of
`getProductInfo`) emits has a non-negative rational `rawPrice` (parse
failures yield 0, never `NaN` and never a thrown error) and satisfies
`priceInEur = rawPrice * exchangeRate` with the rate stored in the same
record. -/
theorem C7_price_invariant
    (index : Nat) (productName productPrice productURL imageUrl : Option (List Char))
    (region : List Char) (exchangeRate : ℚ) (currencySymbol currencyName : List Char)
    (metadataImage : Option (List Char)) (prod : PSNProduct)
    (h : processListing index productName productPrice productURL imageUrl region exchangeRate
      currencySymbol currencyName metadataImage = some prod) :
    0 ≤ prod.rawPrice ∧ prod.priceInEur = prod.rawPrice * prod.exchangeRate := by
  unfold processListing at h
  split at h
  · split at h
    · exact absurd h (by simp)
    · split at h <;>
        (simp only [] at h
         split at h <;>
           (rw [Option.some.injEq] at h; subst h; exact ⟨parsePrice_nonneg _, rfl⟩))
  · exact absurd h (by simp)

theorem matchScore_self (t pr i rk : List Char) (qp : ℚ)
    (ht : t.isEmpty = false) (hpr : pr.isEmpty = false) (hi : i.isEmpty = false)
    (hq : parseFloatJS pr = JSNum.num qp) (hq0 : qp ≠ 0) :
    calculateMatchScore ⟨some t, some pr, some i, rk⟩ ⟨some t, some pr, some i, rk⟩ =
      JSNum.num (1 / 3) := by
  have hts : titleStep ⟨some t, some pr, some i, rk⟩ ⟨some t, some pr, some i, rk⟩
      (JSNum.num 0, 0) = (JSNum.num (2/5), 1) := by
    unfold titleStep
    simp only [ht, Bool.or_self, Bool.false_eq_true, if_false, sim_self]
    rw [JSNum.mul_num, JSNum.add_num]
    norm_num
  have hps : priceStep ⟨some t, some pr, some i, rk⟩ ⟨some t, some pr, some i, rk⟩
      (JSNum.num (2/5), 1) = (JSNum.num (7/10), 2) := by
    unfold priceStep
    simp only [hpr, Bool.or_self, Bool.false_eq_true, if_false, hq]
    rw [JSNum.sub_num, JSNum.abs_num]
    simp only [sub_self, abs_zero]
    rw [JSNum.max2_num]
    simp only [max_self]
    rw [JSNum.div_num_of_ne _ hq0, JSNum.mul_num, JSNum.sub_num, JSNum.max2_num,
      JSNum.mul_num, JSNum.add_num]
    simp only [zero_div, zero_mul, sub_zero]
    norm_num
  have his : idStep ⟨some t, some pr, some i, rk⟩ ⟨some t, some pr, some i, rk⟩
      (JSNum.num (7/10), 2) = (JSNum.num 1, 3) := by
    unfold idStep
    simp only [hi, Bool.or_self, Bool.false_eq_true, if_false, if_pos rfl]
    rw [JSNum.mul_num, JSNum.add_num]
    norm_num
  unfold calculateMatchScore
  rw [hts, hps, his]
  rw [if_pos (by norm_num)]
  rw [JSNum.div_num_of_ne _ (by norm_num)]
  norm_num

theorem contains20_none_iff (s : List Char) :
    contains20Go none s = true ↔ HasBare20xx s := by
  rw [contains20Go_iff]
  constructor
  · rintro ⟨pre, d1, d2, post, heq, h1, h2, hb, hpost⟩
    exact ⟨pre, d1, d2, post, heq, h1, h2, (boundOk_none_iff pre).mp hb, hpost⟩
  · rintro ⟨pre, d1, d2, post, heq, h1, h2, hpre, hpost⟩
    exact ⟨pre, d1, d2, post, heq, h1, h2, (boundOk_none_iff pre).mpr hpre, hpost⟩

/-! ## Claim theorems -/

/-- C9: the Levenshtein-based string similarity is symmetric
(`calculateStringSimilarity a b = calculateStringSimilarity b a`), equals 1
on identical strings, and equals 1 on two empty strings. -/
theorem C9_similarity_properties :
    (∀ a b : List Char, calculateStringSimilarity a b = calculateStringSimilarity b a) ∧
    (∀ a : List Char, calculateStringSimilarity a a = 1) ∧
    calculateStringSimilarity [] [] = 1 :=
  ⟨sim_comm, sim_self, sim_self []⟩

/-- C6: `parsePrice` returns the mathematically correct value on the
common locale formats `"1,234.56"`, `"1.234,56"`, `"1234"` and on the
price text `"€59,99"`, and returns exactly 0 on every input containing no
digit. -/
theorem C6_parsePrice_values :
    parsePrice ("1,234.56".toList) = 1234.56 ∧
    parsePrice ("1.234,56".toList) = 1234.56 ∧
    parsePrice ("1234".toList) = 1234 ∧
    parsePrice ("€59,99".toList) = 59.99 ∧
    (∀ s : List Char, (∀ c ∈ s, c.isDigit = false) → parsePrice s = 0) :=
  ⟨by decide, by decide, by decide, by decide, fun _ h => parsePrice_no_digit h⟩

/-- Witness for C6: the digit-free input `"abc"` parses to 0. -/
theorem C6_witness : parsePrice ("abc".toList) = 0 :=
  C6_parsePrice_values.2.2.2.2 ("abc".toList) (by decide)

/-- C8: `getExchangeRates` never serves an empty table: on a failed
refresh it serves the previously cached table whenever that is non-empty
(regardless of age), and the hardcoded default table (JPY, TRY, INR, EUR)
when the prior cache is empty. -/
theorem C8_exchange_rates_never_empty (now : ℤ) (cache : RateCache)
    (fetchResult : Option EuRates) :
    (getExchangeRates now cache fetchResult).1 ≠ [] ∧
    (fetchResult = none → cache.rates = [] →
      (getExchangeRates now cache fetchResult).1 = fallbackRates) ∧
    (fetchResult = none → cache.rates ≠ [] →
      (getExchangeRates now cache fetchResult).1 = cache.rates) := by
  cases fetchResult with
  | some eu =>
    refine ⟨?_, fun h _ => Option.noConfusion h, fun h _ => Option.noConfusion h⟩
    unfold getExchangeRates
    split
    · rename_i hfresh; exact hfresh.2
    · simp
  | none =>
    unfold getExchangeRates
    split
    · rename_i hfresh
      exact ⟨hfresh.2, fun _ hempty => absurd hempty hfresh.2, fun _ _ => rfl⟩
    · split
      · rename_i eu heq
        exact Option.noConfusion heq
      · split
        · rename_i hne
          exact ⟨hne, fun _ hempty => absurd hempty hne, fun _ _ => rfl⟩
        · rename_i hemp
          have hrates : cache.rates = [] := not_not.mp hemp
          exact ⟨by simp [fallbackRates], fun _ _ => rfl, fun _ hne => absurd hrates hne⟩

/-- Witness for C8: a failed refresh over an empty cache serves the
hardcoded defaults (a non-empty table). -/
theorem C8_witness :
    (getExchangeRates 0 ⟨0, []⟩ none).1 ≠ [] ∧
    (getExchangeRates 0 ⟨0, []⟩ none).1 = fallbackRates :=
  ⟨(C8_exchange_rates_never_empty 0 ⟨0, []⟩ none).1,
   (C8_exchange_rates_never_empty 0 ⟨0, []⟩ none).2.1 rfl rfl⟩

/-- C10: `rankSearchResults` returns the scored list sorted descending by
relevance score; `baseGames` are exactly the entries scoring ≥ 20 and
`dlcAddons` exactly those scoring < 20; the sorted list is precisely
`baseGames ++ dlcAddons`; it is a permutation of the scored input; and no
entry sits in both buckets. -/
theorem C10_rank_properties (results : List PSNProduct) (searchQuery : List Char) :
    ((rankSearchResults results searchQuery).all.Pairwise
      (fun a b => b.relevanceScore ≤ a.relevanceScore)) ∧
    (rankSearchResults results searchQuery).baseGames =
      (rankSearchResults results searchQuery).all.filter
        (fun r => decide (20 ≤ r.relevanceScore)) ∧
    (rankSearchResults results searchQuery).dlcAddons =
      (rankSearchResults results searchQuery).all.filter
        (fun r => decide (r.relevanceScore < 20)) ∧
    (rankSearchResults results searchQuery).all =
      (rankSearchResults results searchQuery).baseGames ++
        (rankSearchResults results searchQuery).dlcAddons ∧
    (rankSearchResults results searchQuery).all.Perm
      (results.map (fun r => ScoredProduct.mk r (calculateRelevanceScore r.name searchQuery))) ∧
    (∀ r : ScoredProduct, ¬(r ∈ (rankSearchResults results searchQuery).baseGames ∧
        r ∈ (rankSearchResults results searchQuery).dlcAddons)) := by
  refine ⟨mergeSort_scored_pairwise _, rfl, rfl, ?_, List.mergeSort_perm _ _, ?_⟩
  · exact (filter_ge_append_filter_lt 20 _ (mergeSort_scored_pairwise _)).symm
  · intro r hr
    obtain ⟨h1, h2⟩ := hr
    simp only [rankSearchResults] at h1 h2
    rw [List.mem_filter] at h1 h2
    have a1 := of_decide_eq_true h1.2
    have a2 := of_decide_eq_true h2.2
    linarith

/-- C4 (code bug): the cross-region loop's own-region guard compares the
target region key against the display name that `extractProductData`
stored in `region`, so it never fires: for a product extracted from
region key `us` every target region is fetched — including `us` itself,
which can even contribute a match entry. -/
theorem C4_own_region_not_skipped :
    fetchedRegions (extractedProduct none (some ("-8".toList)) none ("us".toList))
        (["us".toList, "eu".toList, "jp".toList]) =
      (["us".toList, "eu".toList, "jp".toList]) ∧
    (matchProductsCrossRegion (extractedProduct none (some ("-8".toList)) none ("us".toList))
        (fun r => if r = ("us".toList) then
            some ⟨none, some ("-2".toList), none, "x".toList⟩ else none)
        (["us".toList, "eu".toList, "jp".toList])).exact =
      [⟨"us".toList, ⟨none, some ("-2".toList), none, "x".toList⟩, JSNum.num (21 / 10)⟩] := by
  decide

/-- C1 (code bug): two identical payloads with truthy title, truthy
identifier and a price string parsing to a finite non-zero number score
exactly 1/3 — not 1.0 — because `calculateMatchScore` divides the full
weighted sum 0.40 + 0.30 + 0.30 = 1 by the criteria count 3; consequently
such a candidate lands in no confidence bucket at all (1/3 < 0.60) and
`matchProductsCrossRegion` reports `noMatch`. -/
theorem C1_identical_not_exact (t pr i rk : List Char) (qp : ℚ)
    (ht : t.isEmpty = false) (hpr : pr.isEmpty = false) (hi : i.isEmpty = false)
    (hq : parseFloatJS pr = JSNum.num qp) (hq0 : qp ≠ 0)
    (regions : List (List Char)) :
    calculateMatchScore ⟨some t, some pr, some i, rk⟩ ⟨some t, some pr, some i, rk⟩ =
      JSNum.num (1 / 3) ∧
    matchProductsCrossRegion ⟨some t, some pr, some i, rk⟩
      (fun _ => some ⟨some t, some pr, some i, rk⟩) regions = ⟨[], [], [], true⟩ := by
  refine ⟨matchScore_self t pr i rk qp ht hpr hi hq hq0, ?_⟩
  refine matchBuckets_empty _ _ _ (matchLoop_nil_of_low _ _ ?_ regions)
  intro r cand hc
  rw [Option.some.injEq] at hc
  subst hc
  exact ⟨1/3, matchScore_self t pr i rk qp ht hpr hi hq hq0, by norm_num⟩

/-- Witness for C1 at a concrete identical payload: the score is 1/3 and
every bucket stays empty with `noMatch = true`. -/
theorem C1_witness :
    calculateMatchScore
        ⟨some ("god of war".toList), some ("19.99".toList), some ("CUSA00001".toList),
          "United States".toList⟩
        ⟨some ("god of war".toList), some ("19.99".toList), some ("CUSA00001".toList),
          "United States".toList⟩ = JSNum.num (1 / 3) ∧
    matchProductsCrossRegion
        ⟨some ("god of war".toList), some ("19.99".toList), some ("CUSA00001".toList),
          "United States".toList⟩
        (fun _ => some ⟨some ("god of war".toList), some ("19.99".toList),
          some ("CUSA00001".toList), "United States".toList⟩)
        ["eu".toList, "jp".toList] = ⟨[], [], [], true⟩ :=
  C1_identical_not_exact ("god of war".toList) ("19.99".toList) ("CUSA00001".toList)
    ("United States".toList) (1999/100) (by decide) (by decide) (by decide) (by decide)
    (by norm_num) (["eu".toList, "jp".toList])

/-- C2 (corrected): when every successfully fetched candidate forms a
well-behaved price pair with the product (finite non-negative or `NaN`
prices, not both exactly 0), every match score is a rational in [0, 2/5]
and all three confidence buckets stay empty with `noMatch = true`. The
unconditional claim is false: negative parsed prices push the price
similarity above 1 and the score far beyond 0.4 (see the
counterexample). -/
theorem C2_score_bounded_no_buckets (pd : CRProduct)
    (fetchF : List Char → Option CRProduct) (regions : List (List Char))
    (hf : ∀ r cand, fetchF r = some cand → PriceOKPair pd cand) :
    (∀ r cand, fetchF r = some cand →
      ∃ s : ℚ, calculateMatchScore pd cand = JSNum.num s ∧ 0 ≤ s ∧ s ≤ 2 / 5) ∧
    matchProductsCrossRegion pd fetchF regions = ⟨[], [], [], true⟩ :=
  ⟨fun r cand hc => matchScore_num_bound pd cand (hf r cand hc),
   matchBuckets_empty _ _ _ (matchLoop_nil_of_bound pd fetchF hf regions)⟩

/-- Witness for C2 at a concrete product, fetcher and region list. -/
theorem C2_witness :
    matchProductsCrossRegion ⟨none, some ("10".toList), none, "zz".toList⟩
        (fun r => if r = ("us".toList) then
          some (⟨none, some ("2".toList), none, "x".toList⟩ : CRProduct) else none)
        ["us".toList, "eu".toList] = ⟨[], [], [], true⟩ :=
  (C2_score_bounded_no_buckets ⟨none, some ("10".toList), none, "zz".toList⟩
    (fun r => if r = ("us".toList) then
      some (⟨none, some ("2".toList), none, "x".toList⟩ : CRProduct) else none)
    (["us".toList, "eu".toList])
    (by
      intro r cand hc
      simp only [] at hc
      by_cases hr : r = ("us".toList)
      · rw [if_pos hr, Option.some.injEq] at hc
        subst hc
        refine ⟨Or.inr ⟨10, by decide, by norm_num⟩, Or.inr ⟨2, by decide, by norm_num⟩, ?_⟩
        rintro ⟨h1, -⟩
        exact absurd h1 (by decide)
      · rw [if_neg hr] at hc
        exact Option.noConfusion hc)).2

/-- Counterexample to the original C2: the price pair −1000 / −0.1 makes
the price-similarity term `max(0, 1 − 2·|p1−p2|/max(p1,p2))` blow up to
19999 (division by the negative maximum), so the single-criterion score is
5999.7 — far outside [0, 0.4] — and the candidate lands in the `exact`
bucket. -/
theorem C2_counterexample :
    calculateMatchScore ⟨none, some ("-1000".toList), none, "us".toList⟩
        ⟨none, some ("-0.1".toList), none, "x".toList⟩ = JSNum.num (59997 / 10) ∧
    (matchProductsCrossRegion ⟨none, some ("-1000".toList), none, "us".toList⟩
        (fun r => if r = ("eu".toList) then
          some (⟨none, some ("-0.1".toList), none, "x".toList⟩ : CRProduct) else none)
        ["eu".toList]).exact =
      [⟨"eu".toList, ⟨none, some ("-0.1".toList), none, "x".toList⟩,
        JSNum.num (59997 / 10)⟩] := by
  refine ⟨by decide, by decide⟩

/-- C3 (corrected): after the cleaning pass, a rightmost dot is always the
decimal separator (commas are stripped) with no look-ahead on how many
digits follow it; a rightmost comma is the decimal separator when at most
2 digits follow it, and otherwise only the commas are stripped — the
earlier dot is kept and still acts as the decimal separator, so the digits
after the comma extend the fractional part. The claimed
"strip both separators" fallback never happens. -/
theorem C3_separator_disambiguation :
    (∀ a b c : List Char, (∀ x ∈ a, x.isDigit = true) → (∀ x ∈ b, x.isDigit = true) →
      (∀ x ∈ c, x.isDigit = true) →
      parsePrice (a ++ ',' :: (b ++ '.' :: c)) =
        (natOfDigits (a ++ b) : ℚ) + fracOfDigits c) ∧
    (∀ a b c : List Char, (∀ x ∈ a, x.isDigit = true) → (∀ x ∈ b, x.isDigit = true) →
      (∀ x ∈ c, x.isDigit = true) → c.length ≤ 2 →
      parsePrice (a ++ '.' :: (b ++ ',' :: c)) =
        (natOfDigits (a ++ b) : ℚ) + fracOfDigits c) ∧
    (∀ a b c : List Char, (∀ x ∈ a, x.isDigit = true) → (∀ x ∈ b, x.isDigit = true) →
      (∀ x ∈ c, x.isDigit = true) → 2 < c.length →
      parsePrice (a ++ '.' :: (b ++ ',' :: c)) =
        (natOfDigits a : ℚ) + fracOfDigits (b ++ c)) :=
  ⟨parsePrice_dot_last, parsePrice_comma_last_le2, parsePrice_comma_last_gt2⟩

/-- Witness for C3: `"1,234.5678"` (dot rightmost, 4 digits after it)
keeps the dot as decimal separator. -/
theorem C3_witness :
    parsePrice (("1".toList) ++ ',' :: (("234".toList) ++ '.' :: ("5678".toList))) =
      (natOfDigits ("1".toList ++ "234".toList) : ℚ) + fracOfDigits ("5678".toList) :=
  C3_separator_disambiguation.1 ("1".toList) ("234".toList) ("5678".toList)
    (by decide) (by decide) (by decide)

/-- Counterexample to the original C3: on `"1,234.5678"` the claimed rule
(rightmost separator followed by more than 2 digits ⇒ strip both
separators) yields 12345678, but the implementation returns 1234.5678. -/
theorem C3_counterexample :
    parsePrice ("1,234.5678".toList) = 6172839 / 5000 ∧
    parsePriceSpec ("1,234.5678".toList) = 12345678 ∧
    parsePrice ("1,234.5678".toList) ≠ parsePriceSpec ("1,234.5678".toList) := by
  refine ⟨by decide, by decide, by decide⟩

/-- C5 (corrected): the year bonus is exactly +15 on top of the other
scoring steps, but it fires for any parenthesised 4-digit group
`/\(\d{4}\)/` — not only years of the form `20xx` — or for a word-bounded
bare `20dd` token. A name like `"(1993)"` also earns the bonus, refuting
the "matching 20xx, parenthesized or bare" reading. -/
theorem C5_year_bonus_amended (productName searchQuery : List Char)
    (hn : productName ≠ []) (hq : searchQuery ≠ []) :
    calculateRelevanceScore productName searchQuery =
      relevanceScoreSansYear productName searchQuery +
        (if yearIndicator (lowerL productName) then (15 : ℚ) else 0) ∧
    (∀ s : List Char, yearIndicator s = true ↔ HasParenFourDigits s ∨ HasBare20xx s) := by
  refine ⟨relevanceScore_year_split productName searchQuery hn hq, fun s => ?_⟩
  simp only [yearIndicator, Bool.or_eq_true, containsParenYear_iff, contains20_none_iff]

/-- Witness for C5 at a name carrying a 20xx year. -/
theorem C5_witness :
    calculateRelevanceScore ("doom (2016)".toList) ("doom".toList) =
      relevanceScoreSansYear ("doom (2016)".toList) ("doom".toList) +
        (if yearIndicator (lowerL ("doom (2016)".toList)) then (15 : ℚ) else 0) :=
  (C5_year_bonus_amended ("doom (2016)".toList) ("doom".toList)
    (by decide) (by decide)).1

/-- Counterexample to the original C5: `"Doom (1993)"` has no `20xx` token,
yet the implementation's year test fires on `(1993)` and awards the +15
bonus (score 100 instead of the 85 earned by the other steps). -/
theorem C5_counterexample :
    yearIndicator (lowerL ("Doom (1993)".toList)) = true ∧
    yearIndicatorSpec (lowerL ("Doom (1993)".toList)) = false ∧
    calculateRelevanceScore ("Doom (1993)".toList) ("doom".toList) = 100 ∧
    relevanceScoreSansYear ("Doom (1993)".toList) ("doom".toList) = 85 := by
  refine ⟨by decide, by decide, by decide, by decide⟩

/-- Witness for C7 at a concrete listing: price text `"5"` at exchange
rate 2 gives `rawPrice = 5 ≥ 0` and `priceInEur = 10 = 5 * 2`. -/
theorem C7_witness :
    0 ≤ (⟨0, "A".toList, "5".toList, 5, 10, "¥".toList, "JPY".toList, 2,
        getProductUrl none, upgradeImageUrl none, "JP".toList, none, false⟩ :
        PSNProduct).rawPrice ∧
    (⟨0, "A".toList, "5".toList, 5, 10, "¥".toList, "JPY".toList, 2,
        getProductUrl none, upgradeImageUrl none, "JP".toList, none, false⟩ :
        PSNProduct).priceInEur =
      (⟨0, "A".toList, "5".toList, 5, 10, "¥".toList, "JPY".toList, 2,
        getProductUrl none, upgradeImageUrl none, "JP".toList, none, false⟩ :
        PSNProduct).rawPrice *
      (⟨0, "A".toList, "5".toList, 5, 10, "¥".toList, "JPY".toList, 2,
        getProductUrl none, upgradeImageUrl none, "JP".toList, none, false⟩ :
        PSNProduct).exchangeRate :=
  C7_price_invariant 0 (some ("A".toList)) (some ("5".toList)) none none ("JP".toList) 2
    ("¥".toList) ("JPY".toList) none _ (by decide)
